import Mathlib

/-!
# Block and transaction validation core (package blockchain2)

A shallow embedding of the wire codec, the canonical ordering and the
block-scope consensus checks of `blockchain2`:

* `b-block.go`        : `Block.Bytes`, `Block.Read`, `Block.Validate` and its helpers
* `b-blockHeader.go`  : `BlockHeader.Bytes`, `BlockHeader.Read`, `BlockHeader.Validate`
* `tx-input.go`, `tx-output.go`, `tx-txKernel.go` and the three sortable lists

Bytes are natural numbers below 256 and a byte stream is a list of bytes.
A reader is an in-memory stream; a decoding method returns the error, the
receiver as the call leaves it, and what remains of the stream.

The collaborators that live outside these files (digests, the curve point and
range-proof codecs and verifiers, the signature scheme, the proof of work, the
clock, the standard sort and the constants of other packages) are the fields of
`Ext`.
-/

set_option autoImplicit false
set_option maxRecDepth 100000

namespace Blockchain2

/-! ## Wire primitives -/

/-- A byte stream held by an in-memory reader: the bytes not yet consumed. -/
abbrev Stream := List Nat

/-- Modelled from the spec: the type `Hash` (its declaration is not among the sources);
a byte sequence, of the fixed length `BlockHashSize` when well formed. -/
abbrev Hash := List Nat

/-- The type `secp256k1zkp.Commitment`, a byte slice (pedersen.go). -/
abbrev Commitment := List Nat

/-- Modelled from the spec: the constant `BlockHashSize` (its declaration is not among the
sources); the spec fixes hashes at 32 bytes. -/
def BlockHashSize : Nat := 32

/-- Modelled from the spec: the constant `MaxBlockCoinbaseOutputs` (its declaration is not
among the sources); the spec gives the maximum allowed coinbase outputs per block as 1. -/
def MaxBlockCoinbaseOutputs : Nat := 1

/-- Modelled from the spec: the constant `MaxBlockCoinbaseKernels` (its declaration is not
among the sources); the spec gives the maximum allowed coinbase kernels per block as 1. -/
def MaxBlockCoinbaseKernels : Nat := 1

/-- The flag `CoinbaseOutput OutputFeatures = 1 << 0` (tx-outputFeature.go). -/
def CoinbaseOutput : Nat := 1

/-- The flag `DefaultOutput OutputFeatures = 0` (tx-outputFeature.go). -/
def DefaultOutput : Nat := 0

/-- The flag `CoinbaseKernel KernelFeatures = 1 << 0` (tx-kernelFeature.go). -/
def CoinbaseKernel : Nat := 1

/-- The flag `DefaultKernel KernelFeatures = 0` (tx-kernelFeature.go). -/
def DefaultKernel : Nat := 0

/-- A curve point of the external library `bulletproofs`, kept as uninterpreted data;
its byte codec is supplied by `Ext`. -/
structure Point where
  raw : List Nat
deriving DecidableEq

/-- A range proof of the external library `bulletproofs`, kept as uninterpreted data;
its byte codec and its verifier are supplied by `Ext`. -/
structure BulletProof where
  raw : List Nat
deriving DecidableEq

/-- A decoded signature of package `secp256k1zkp`, kept as uninterpreted data. -/
structure Signature where
  raw : List Nat
deriving DecidableEq

/-- Modelled from the spec: the type `Proof` of the proof-of-work object (its declaration is
not among the sources): an opaque proof that exposes its edge-bit width; the rest of it is
kept as uninterpreted data. -/
structure Proof where
  EdgeBits : Nat
  raw : List Nat
deriving DecidableEq

/-- Modelled from the spec: the type `Difficulty` (its declaration is not among the sources),
a difficulty value. -/
abbrev Difficulty := Nat

/-- A `time.Time` without monotonic reading: Unix seconds, nanoseconds within the second,
and a location (0 is UTC). -/
structure Time where
  sec : Int
  nsec : Nat
  loc : Nat
deriving DecidableEq

/-- The largest `time.Duration`, in nanoseconds. -/
def maxDuration : Int := 2 ^ 63 - 1

/-- The smallest `time.Duration`, in nanoseconds. -/
def minDuration : Int := -(2 ^ 63)

/-- `Time.Sub`: the duration `t - u` in nanoseconds, saturated at the ends of the
`Duration` range. -/
def Time.Sub (t u : Time) : Int :=
  let d := (t.sec - u.sec) * 1000000000 + ((t.nsec : Int) - (u.nsec : Int))
  if d > maxDuration then maxDuration
  else if d < minDuration then minDuration
  else d

/-- `Time.Unix`: the seconds since the Unix epoch. -/
def Time.Unix (t : Time) : Int := t.sec

/-- `time.Unix(ts, 0).UTC()`. -/
def Time.unixUTC (ts : Int) : Time := ⟨ts, 0, 0⟩

/-- The errors returned by the decoding and validation methods. -/
inductive Err where
  /-- `io.EOF` -/
  | EOF
  /-- `io.ErrUnexpectedEOF` -/
  | ErrUnexpectedEOF
  /-- an error value returned by an external collaborator, told apart by a code -/
  | external (code : Nat)
  /-- "transaction contains too many inputs" -/
  | tooManyInputs
  /-- "transaction contains too many outputs" -/
  | tooManyOutputs
  /-- "transaction contains too many kernels" -/
  | tooManyKernels
  /-- "invalid range proof length: %d" -/
  | invalidRangeProofLength (proofLen : Nat)
  /-- "failed to deserialize range proof" -/
  | failedDeserializeRangeProof
  /-- "invalid nocoinbase block" -/
  | invalidNoCoinbaseBlock
  /-- "invalid block with few coinbase outputs" -/
  | fewCoinbaseOutputs
  /-- "invalid block with few coinbase kernels" -/
  | fewCoinbaseKernels
  /-- "block inputs are not sorted" -/
  | inputsNotSorted
  /-- "block outputs are not sorted" -/
  | outputsNotSorted
  /-- "block kernels are not sorted" -/
  | kernelsNotSorted
  /-- "proof verification failed for %v %v" -/
  | proofVerificationFailed (commit : Point) (proof : BulletProof)
  /-- `ErrInvalidSignature`, "signature isn't valid" -/
  | ErrInvalidSignature
  /-- "invalid block time (%s)" -/
  | invalidBlockTime (timestamp : Time)
  /-- "cuckoo size too small: %d" -/
  | cuckooSizeTooSmall (edgeBits : Nat)
deriving DecidableEq

/-- What a decoding method leaves behind: the returned error (`none` is nil), the receiver
after the call, and the unread rest of the stream. -/
structure Res (σ : Type) where
  err : Option Err
  self : σ
  rest : Stream
deriving DecidableEq

/-- `io.ReadFull(r, buf)` on an in-memory reader: fills `buf` from the stream; with too few
bytes left the error is `io.EOF` when nothing was read and `io.ErrUnexpectedEOF` otherwise,
and the unfilled tail of `buf` keeps its bytes. -/
def ioReadFull (buf : List Nat) (r : Stream) : Option Err × List Nat × Stream :=
  if buf.length ≤ r.length then (none, r.take buf.length, r.drop buf.length)
  else if r.length = 0 then (some Err.EOF, buf, [])
  else (some Err.ErrUnexpectedEOF, r ++ buf.drop r.length, [])

/-- `make([]byte, n)`: a zeroed buffer. -/
def makeBytes (n : Nat) : List Nat := List.replicate n 0

/-- The `w` big-endian bytes of `v` (the low `8 * w` bits of it). -/
def bigEndianPut : Nat → Nat → List Nat
  | 0, _ => []
  | w + 1, v => (v / 256 ^ w) % 256 :: bigEndianPut w v

/-- The unsigned value of big-endian bytes. -/
def bigEndianGet (bs : List Nat) : Nat :=
  bs.foldl (fun acc b => acc * 256 + b % 256) 0

/-- `binary.Write(buff, binary.BigEndian, v)` for a `uint64`. -/
def writeUint64 (v : Nat) : List Nat := bigEndianPut 8 (v % 2 ^ 64)

/-- `binary.Write(buff, binary.BigEndian, v)` for a `uint8`. -/
def writeUint8 (v : Nat) : List Nat := [v % 256]

/-- `binary.Write(buff, binary.BigEndian, v)` for an `int64` (two's complement). -/
def writeInt64 (v : Int) : List Nat := bigEndianPut 8 (v % 2 ^ 64).toNat

/-- `binary.Read(r, binary.BigEndian, &v)` for a `uint64`: the error, the value read, the
rest of the stream. On an error the destination is left alone. -/
def readUint64 (r : Stream) : Option Err × Nat × Stream :=
  match ioReadFull (makeBytes 8) r with
  | (e, bs, r1) => (e, bigEndianGet bs, r1)

/-- `binary.Read(r, binary.BigEndian, &v)` for a `uint8`. -/
def readUint8 (r : Stream) : Option Err × Nat × Stream :=
  match ioReadFull (makeBytes 1) r with
  | (e, bs, r1) => (e, bigEndianGet bs, r1)

/-- `binary.Read(r, binary.BigEndian, &v)` for an `int64`. -/
def readInt64 (r : Stream) : Option Err × Int × Stream :=
  match ioReadFull (makeBytes 8) r with
  | (e, bs, r1) =>
    let u := bigEndianGet bs
    (e, if u < 2 ^ 63 then (u : Int) else (u : Int) - 2 ^ 64, r1)

/-- The conversion `int64(v)` of a `uint64`. -/
def toInt64 (v : Nat) : Int :=
  if v % 2 ^ 64 < 2 ^ 63 then ((v % 2 ^ 64 : Nat) : Int) else ((v % 2 ^ 64 : Nat) : Int) - 2 ^ 64

/-- A decoder run on `io.LimitReader(r, n)`: it is handed at most `n` bytes of the stream
(none when `n` is not positive), and what it consumes of them is consumed from `r`. -/
def withLimitReader {α : Type} (n : Int) (r : Stream)
    (decode : Stream → Option Nat × α × Stream) : Option Nat × α × Stream :=
  let limited := r.take n.toNat
  let res := decode limited
  (res.1, res.2.1, r.drop (limited.length - res.2.2.length))

/-- `bytes.Compare`: lexicographic comparison, giving -1, 0 or 1. -/
def bytesCompare : List Nat → List Nat → Int
  | [], [] => 0
  | [], _ :: _ => -1
  | _ :: _, [] => 1
  | a :: as, b :: bs => if a < b then -1 else if b < a then 1 else bytesCompare as bs

/-- `sort.IsSorted(data)`: no element is `Less` than the one before it. -/
def sortIsSorted {α : Type} (less : α → α → Bool) : List α → Bool
  | [] => true
  | [_] => true
  | a :: b :: t => !less b a && sortIsSorted less (b :: t)

/-! ## Entities -/

/-- The struct `Input` (tx-input.go). -/
structure Input where
  Features : Nat
  Commit : Commitment
deriving DecidableEq

/-- The struct `Output` (tx-output.go). The pointer `Commit` is held by its target. -/
structure Output where
  Features : Nat
  Commit : Point
  RangeProof : BulletProof
deriving DecidableEq

/-- The struct `TxKernel` (tx-txKernel.go). `ExcessSig` is the array `[64]byte`. -/
structure TxKernel where
  Features : Nat
  Fee : Nat
  LockHeight : Nat
  Excess : Point
  ExcessSig : List Nat
deriving DecidableEq

/-- The struct `BlockHeader` (b-blockHeader.go). -/
structure BlockHeader where
  Height : Nat
  Previous : Hash
  PreviousRoot : Hash
  Timestamp : Time
  UTXORoot : Hash
  RangeProofRoot : Hash
  KernelRoot : Hash
  Nonce : Nat
  TotalKernelOffset : Hash
  TotalKernelSum : Commitment
  OutputMmrSize : Nat
  KernelMmrSize : Nat
  POW : Proof
  Difficulty : Difficulty
deriving DecidableEq

/-- The struct `Block` (b-block.go). -/
structure Block where
  Header : BlockHeader
  Inputs : List Input
  Outputs : List Output
  Kernels : List TxKernel
deriving DecidableEq

/-- The collaborators of the core that are not part of these source files. An error that one
of them returns is given by a code and reaches the caller as `Err.external code`. -/
structure Ext where
  /-- `blake2b.Sum256` -/
  blake2bSum256 : List Nat → List Nat
  /-- `sha256.Sum256` -/
  sha256Sum256 : List Nat → List Nat
  /-- `sort.Sort` of the standard library, as a function of `Less` and of the slice -/
  sortSort : {α : Type} → (α → α → Bool) → List α → List α
  /-- `(*bulletproofs.Point).Bytes` -/
  pointBytes : Point → List Nat
  /-- `(*bulletproofs.Point).Read`, from the receiver and the stream -/
  pointRead : Point → Stream → Option Nat × Point × Stream
  /-- `(*bulletproofs.BulletProof).Bytes` -/
  bulletProofBytes : BulletProof → List Nat
  /-- `(*bulletproofs.BulletProof).Read`, from the receiver and the stream it is given -/
  bulletProofRead : BulletProof → Stream → Option Nat × BulletProof × Stream
  /-- `bulletproofs.NewProver(64).Verify` -/
  proverVerify : Point → BulletProof → Bool
  /-- `secp256k1zkp.ComputeMessage` -/
  ComputeMessage : Nat → Nat → List Nat
  /-- `secp256k1zkp.DecodeSignature` -/
  DecodeSignature : List Nat → Signature
  /-- `secp256k1zkp.VerifySignature` -/
  VerifySignature : Point → List Nat → Signature → Bool
  /-- `Proof.Bytes` -/
  powBytes : Proof → List Nat
  /-- `Proof.ProofBytes` -/
  powProofBytes : Proof → List Nat
  /-- `Proof.Read`, from the receiver and the stream -/
  powRead : Proof → Stream → Option Nat × Proof × Stream
  /-- `Proof.Validate(header, edgeBits)` -/
  powValidate : Proof → BlockHeader → Nat → Option Nat
  /-- `time.Now().UTC()` at the time of the call -/
  timeNow : Time
  /-- the constant `SecondPowEdgeBits` -/
  SecondPowEdgeBits : Nat
  /-- the constant `DefaultMinEdgeBits` -/
  DefaultMinEdgeBits : Nat
  /-- the constant `BlockTimeSec` -/
  BlockTimeSec : Nat
  /-- the constant `secp256k1zkp.SecretKeySize` -/
  SecretKeySize : Nat
  /-- the constant `secp256k1zkp.PedersenCommitmentSize` -/
  PedersenCommitmentSize : Nat
  /-- the constant `secp256k1zkp.MaxProofSize` -/
  MaxProofSize : Nat

/-- The zero value of `Point`. -/
def Point.zero : Point := ⟨[]⟩

/-- The zero value of `BulletProof`. -/
def BulletProof.zero : BulletProof := ⟨[]⟩

/-- The zero value of `Proof`. -/
def Proof.zero : Proof := ⟨0, []⟩

/-- The zero value of `Input`. -/
def Input.zero : Input := ⟨0, []⟩

/-- The zero value of `Output`. -/
def Output.zero : Output := ⟨0, Point.zero, BulletProof.zero⟩

/-- The zero value of `TxKernel`. -/
def TxKernel.zero : TxKernel := ⟨0, 0, 0, Point.zero, List.replicate 64 0⟩

/-- The zero value of `time.Time`: January 1 of year 1, 00:00:00 UTC, which is 62135596800
seconds before the Unix epoch. -/
def Time.zero : Time := ⟨-62135596800, 0, 0⟩

/-- The zero value of `BlockHeader`. -/
def BlockHeader.zero : BlockHeader :=
  ⟨0, [], [], Time.zero, [], [], [], 0, [], [], 0, 0, Proof.zero, 0⟩

/-- The zero value of `Block`. -/
def Block.zero : Block := ⟨BlockHeader.zero, [], [], []⟩

/-! ## Leaf entities: `Input`, `Output`, `TxKernel` -/

/-- `Input.Bytes`: the features byte, then the commitment. -/
def Input.Bytes (input : Input) : List Nat :=
  writeUint8 input.Features ++ input.Commit

/-- `Input.Read`: the features byte, then `PedersenCommitmentSize` commitment bytes, which
are stored only once they are all read. -/
def Input.Read (x : Ext) (input : Input) (r : Stream) : Res Input :=
  match readUint8 r with
  | (some e, _, r1) => ⟨some e, input, r1⟩
  | (none, f, r1) =>
  let input := { input with Features := f }
  match ioReadFull (makeBytes x.PedersenCommitmentSize) r1 with
  | (some e, _, r2) => ⟨some e, input, r2⟩
  | (none, commitment, r2) => ⟨none, { input with Commit := commitment }, r2⟩

/-- `Input.Hash`: the BLAKE2b digest of the serialised input. -/
def Input.Hash (x : Ext) (input : Input) : List Nat :=
  x.blake2bSum256 input.Bytes

/-- `Output.BytesWithoutProof`: the features byte, then the commitment bytes. -/
def Output.BytesWithoutProof (x : Ext) (o : Output) : List Nat :=
  writeUint8 o.Features ++ x.pointBytes o.Commit

/-- `Output.Bytes`: the bytes without proof, the proof length as a `uint64`, the proof. -/
def Output.Bytes (x : Ext) (o : Output) : List Nat :=
  let proof := x.bulletProofBytes o.RangeProof
  Output.BytesWithoutProof x o ++ writeUint64 proof.length ++ proof

/-- `Output.Read`. The commitment is read into a fresh point; a proof length above
`MaxProofSize` is refused; the proof decoder reads through `io.LimitReader(r, int64(proofLen))`
and any error of it is replaced by the deserialisation error. -/
def Output.Read (x : Ext) (o : Output) (r : Stream) : Res Output :=
  match readUint8 r with
  | (some e, _, r1) => ⟨some e, o, r1⟩
  | (none, f, r1) =>
  let o := { o with Features := f }
  match x.pointRead Point.zero r1 with
  | (some c, p, r2) => ⟨some (Err.external c), { o with Commit := p }, r2⟩
  | (none, p, r2) =>
  let o := { o with Commit := p }
  match readUint64 r2 with
  | (some e, _, r3) => ⟨some e, o, r3⟩
  | (none, proofLen, r3) =>
  if proofLen > x.MaxProofSize then ⟨some (Err.invalidRangeProofLength proofLen), o, r3⟩
  else
  match withLimitReader (toInt64 proofLen) r3 (x.bulletProofRead BulletProof.zero) with
  | (some _, _, r4) => ⟨some Err.failedDeserializeRangeProof, o, r4⟩
  | (none, proof, r4) => ⟨none, { o with RangeProof := proof }, r4⟩

/-- `Output.Validate`: returns nil. -/
def Output.Validate (_o : Output) : Option Err := none

/-- `Output.Hash`: the SHA-256 digest of the bytes without proof. -/
def Output.Hash (x : Ext) (o : Output) : List Nat :=
  x.sha256Sum256 (Output.BytesWithoutProof x o)

/-- `TxKernel.Bytes`: features, fee, lock height, excess, excess signature. -/
def TxKernel.Bytes (x : Ext) (k : TxKernel) : List Nat :=
  writeUint8 k.Features ++ writeUint64 k.Fee ++ writeUint64 k.LockHeight
    ++ x.pointBytes k.Excess ++ k.ExcessSig

/-- `TxKernel.Hash`: the BLAKE2b digest of the serialised kernel. -/
def TxKernel.Hash (x : Ext) (k : TxKernel) : List Nat :=
  x.blake2bSum256 (TxKernel.Bytes x k)

/-- `TxKernel.Read`: features, fee, lock height, then the excess read into the kernel's own
point, then the signature read into the kernel's own array. -/
def TxKernel.Read (x : Ext) (k : TxKernel) (r : Stream) : Res TxKernel :=
  match readUint8 r with
  | (some e, _, r1) => ⟨some e, k, r1⟩
  | (none, f, r1) =>
  let k := { k with Features := f }
  match readUint64 r1 with
  | (some e, _, r2) => ⟨some e, k, r2⟩
  | (none, fee, r2) =>
  let k := { k with Fee := fee }
  match readUint64 r2 with
  | (some e, _, r3) => ⟨some e, k, r3⟩
  | (none, lock, r3) =>
  let k := { k with LockHeight := lock }
  match x.pointRead k.Excess r3 with
  | (some c, p, r4) => ⟨some (Err.external c), { k with Excess := p }, r4⟩
  | (none, p, r4) =>
  let k := { k with Excess := p }
  match ioReadFull k.ExcessSig r4 with
  | (some e, sig, r5) => ⟨some e, { k with ExcessSig := sig }, r5⟩
  | (none, sig, r5) => ⟨none, { k with ExcessSig := sig }, r5⟩

/-- `TxKernel.Validate`: the signature over the message of `(Fee, LockHeight)` must verify
against the excess. -/
def TxKernel.Validate (x : Ext) (k : TxKernel) : Option Err :=
  let msg := x.ComputeMessage k.Fee k.LockHeight
  let signature := x.DecodeSignature k.ExcessSig
  let P := k.Excess
  if !x.VerifySignature P msg signature then some Err.ErrInvalidSignature
  else none

/-! ## Sortable collections -/

/-- `InputList.Less`: order by the byte-wise comparison of the hashes. -/
def InputList.Less (x : Ext) (a b : Input) : Bool :=
  decide (bytesCompare (Input.Hash x a) (Input.Hash x b) < 0)

/-- `OutputList.Less`: order by the byte-wise comparison of the hashes. -/
def OutputList.Less (x : Ext) (a b : Output) : Bool :=
  decide (bytesCompare (Output.Hash x a) (Output.Hash x b) < 0)

/-- `TxKernelList.Less`: order by the byte-wise comparison of the hashes. -/
def TxKernelList.Less (x : Ext) (a b : TxKernel) : Bool :=
  decide (bytesCompare (TxKernel.Hash x a) (TxKernel.Hash x b) < 0)

/-! ## Block header -/

/-- `BlockHeader.Hash`: the BLAKE2b digest of the proof bytes of the proof of work. -/
def BlockHeader.Hash (x : Ext) (b : BlockHeader) : Hash :=
  x.blake2bSum256 (x.powProofBytes b.POW)

/-- `BlockHeader.bytesWithoutPOW`; `none` stands for the fatal exit taken when a checked
hash field has not the length `BlockHashSize`. -/
def BlockHeader.bytesWithoutPOW (b : BlockHeader) : Option (List Nat) :=
  if b.Previous.length ≠ BlockHashSize then none
  else if b.PreviousRoot.length ≠ BlockHashSize then none
  else if b.UTXORoot.length ≠ BlockHashSize ∨ b.RangeProofRoot.length ≠ BlockHashSize
      ∨ b.KernelRoot.length ≠ BlockHashSize then none
  else some (writeUint64 b.Height ++ writeInt64 b.Timestamp.Unix ++ b.Previous
    ++ b.PreviousRoot ++ b.UTXORoot ++ b.RangeProofRoot ++ b.KernelRoot
    ++ b.TotalKernelOffset ++ writeUint64 b.OutputMmrSize ++ writeUint64 b.KernelMmrSize
    ++ writeUint64 b.Nonce)

/-- `BlockHeader.bytesPOW`. -/
def BlockHeader.bytesPOW (x : Ext) (b : BlockHeader) : List Nat :=
  x.powBytes b.POW

/-- `BlockHeader.Bytes`: the bytes without the proof of work, then the proof of work. -/
def BlockHeader.Bytes (x : Ext) (b : BlockHeader) : Option (List Nat) :=
  match b.bytesWithoutPOW with
  | none => none
  | some bs => some (bs ++ BlockHeader.bytesPOW x b)

/-- `BlockHeader.Read`. Each hash field is replaced by a fresh buffer before it is filled. -/
def BlockHeader.Read (x : Ext) (b : BlockHeader) (r : Stream) : Res BlockHeader :=
  match readUint64 r with
  | (some e, _, r1) => ⟨some e, b, r1⟩
  | (none, height, r1) =>
  let b := { b with Height := height }
  match readInt64 r1 with
  | (some e, _, r2) => ⟨some e, b, r2⟩
  | (none, ts, r2) =>
  let b := { b with Timestamp := Time.unixUTC ts }
  match ioReadFull (makeBytes BlockHashSize) r2 with
  | (some e, buf, r3) => ⟨some e, { b with Previous := buf }, r3⟩
  | (none, buf, r3) =>
  let b := { b with Previous := buf }
  match ioReadFull (makeBytes BlockHashSize) r3 with
  | (some e, buf, r4) => ⟨some e, { b with PreviousRoot := buf }, r4⟩
  | (none, buf, r4) =>
  let b := { b with PreviousRoot := buf }
  match ioReadFull (makeBytes BlockHashSize) r4 with
  | (some e, buf, r5) => ⟨some e, { b with UTXORoot := buf }, r5⟩
  | (none, buf, r5) =>
  let b := { b with UTXORoot := buf }
  match ioReadFull (makeBytes BlockHashSize) r5 with
  | (some e, buf, r6) => ⟨some e, { b with RangeProofRoot := buf }, r6⟩
  | (none, buf, r6) =>
  let b := { b with RangeProofRoot := buf }
  match ioReadFull (makeBytes BlockHashSize) r6 with
  | (some e, buf, r7) => ⟨some e, { b with KernelRoot := buf }, r7⟩
  | (none, buf, r7) =>
  let b := { b with KernelRoot := buf }
  match ioReadFull (makeBytes x.SecretKeySize) r7 with
  | (some e, buf, r8) => ⟨some e, { b with TotalKernelOffset := buf }, r8⟩
  | (none, buf, r8) =>
  let b := { b with TotalKernelOffset := buf }
  match readUint64 r8 with
  | (some e, _, r9) => ⟨some e, b, r9⟩
  | (none, outputMmrSize, r9) =>
  let b := { b with OutputMmrSize := outputMmrSize }
  match readUint64 r9 with
  | (some e, _, r10) => ⟨some e, b, r10⟩
  | (none, kernelMmrSize, r10) =>
  let b := { b with KernelMmrSize := kernelMmrSize }
  match readUint64 r10 with
  | (some e, _, r11) => ⟨some e, b, r11⟩
  | (none, nonce, r11) =>
  let b := { b with Nonce := nonce }
  match x.powRead b.POW r11 with
  | (some c, pow, r12) => ⟨some (Err.external c), { b with POW := pow }, r12⟩
  | (none, pow, r12) => ⟨none, { b with POW := pow }, r12⟩

/-- `BlockHeader.Validate`: the future-dating rule, the edge-bit rule for a primary proof,
then the proof of work's own validation. -/
def BlockHeader.Validate (x : Ext) (b : BlockHeader) : Option Err :=
  if Time.Sub b.Timestamp x.timeNow > 1000000000 * 12 * (x.BlockTimeSec : Int) then
    some (Err.invalidBlockTime b.Timestamp)
  else
  let isPrimaryPow := b.POW.EdgeBits != x.SecondPowEdgeBits
  if b.POW.EdgeBits < x.DefaultMinEdgeBits && isPrimaryPow then
    some (Err.cuckooSizeTooSmall b.POW.EdgeBits)
  else
  match x.powValidate b.POW b b.POW.EdgeBits with
  | some c => some (Err.external c)
  | none => none

/-! ## Block -/

/-- The loop `for _, e := range list { buff.Write(e.Bytes()) }`. -/
def writeAll {α : Type} (bytesOf : α → List Nat) : List α → List Nat
  | [] => []
  | e :: t => bytesOf e ++ writeAll bytesOf t

/-- The loop `list = make([]T, n); for i := 0; i < n; i++ { list[i].Read(r) }`: every
element starts as the zero value; the loop stops at the first error, leaving the elements
after it as they were made. -/
def readAll {α : Type} (read : α → Stream → Res α) (zero : α) : Nat → Stream → Res (List α)
  | 0, r => ⟨none, [], r⟩
  | n + 1, r =>
    let first := read zero r
    match first.err with
    | some e => ⟨some e, first.self :: List.replicate n zero, first.rest⟩
    | none =>
      let others := readAll read zero n first.rest
      ⟨others.err, first.self :: others.self, others.rest⟩

/-- `Block.Bytes`: the header bytes, the three counts, then, after sorting the three lists
in place, the elements of each list. The result is the byte string and the block as the call
leaves it; `none` stands for the fatal exit of the header encoder. -/
def Block.Bytes (x : Ext) (b : Block) : Option (List Nat × Block) :=
  match BlockHeader.Bytes x b.Header with
  | none => none
  | some header =>
  let counts := writeUint64 b.Inputs.length ++ writeUint64 b.Outputs.length
    ++ writeUint64 b.Kernels.length
  let b := { b with Inputs := x.sortSort (InputList.Less x) b.Inputs }
  let b := { b with Outputs := x.sortSort (OutputList.Less x) b.Outputs }
  let b := { b with Kernels := x.sortSort (TxKernelList.Less x) b.Kernels }
  some (header ++ counts ++ writeAll Input.Bytes b.Inputs
    ++ writeAll (Output.Bytes x) b.Outputs ++ writeAll (TxKernel.Bytes x) b.Kernels, b)

/-- `Block.Read`: the header, the three counts, the guard on the counts, then the elements
of each list. -/
def Block.Read (x : Ext) (b : Block) (r : Stream) : Res Block :=
  let header := BlockHeader.Read x b.Header r
  let b := { b with Header := header.self }
  match header.err with
  | some e => ⟨some e, b, header.rest⟩
  | none =>
  match readUint64 header.rest with
  | (some e, _, r1) => ⟨some e, b, r1⟩
  | (none, inputs, r1) =>
  match readUint64 r1 with
  | (some e, _, r2) => ⟨some e, b, r2⟩
  | (none, outputs, r2) =>
  match readUint64 r2 with
  | (some e, _, r3) => ⟨some e, b, r3⟩
  | (none, kernels, r3) =>
  if inputs > 1000000 then ⟨some Err.tooManyInputs, b, r3⟩
  else if outputs > 1000000 then ⟨some Err.tooManyOutputs, b, r3⟩
  else if kernels > 1000000 then ⟨some Err.tooManyKernels, b, r3⟩
  else
  let ins := readAll (Input.Read x) Input.zero inputs r3
  let b := { b with Inputs := ins.self }
  match ins.err with
  | some e => ⟨some e, b, ins.rest⟩
  | none =>
  let outs := readAll (Output.Read x) Output.zero outputs ins.rest
  let b := { b with Outputs := outs.self }
  match outs.err with
  | some e => ⟨some e, b, outs.rest⟩
  | none =>
  let kers := readAll (TxKernel.Read x) TxKernel.zero kernels outs.rest
  let b := { b with Kernels := kers.self }
  match kers.err with
  | some e => ⟨some e, b, kers.rest⟩
  | none => ⟨none, b, kers.rest⟩

/-- `Block.Hash`: the hash of the header. -/
def Block.Hash (x : Ext) (b : Block) : Hash :=
  BlockHeader.Hash x b.Header

/-- The loop of `Block.verifyCoinbase`, from the running count `coinbase`. -/
def Block.verifyCoinbaseLoop : Nat → List Output → Option Err
  | _, [] => none
  | coinbase, output :: rest =>
    if output.Features &&& CoinbaseOutput = CoinbaseOutput then
      let coinbase := coinbase + 1
      if coinbase > MaxBlockCoinbaseOutputs then some Err.fewCoinbaseOutputs
      else
      match output.Validate with
      | some e => some e
      | none => Block.verifyCoinbaseLoop coinbase rest
    else Block.verifyCoinbaseLoop coinbase rest

/-- `Block.verifyCoinbase`. -/
def Block.verifyCoinbase (b : Block) : Option Err :=
  Block.verifyCoinbaseLoop 0 b.Outputs

/-- The loop of `Block.verifyKernels`, from the running count `coinbase`. -/
def Block.verifyKernelsLoop (x : Ext) : Nat → List TxKernel → Option Err
  | _, [] => none
  | coinbase, kernel :: rest =>
    if kernel.Features &&& CoinbaseKernel = CoinbaseKernel then
      let coinbase := coinbase + 1
      if coinbase > MaxBlockCoinbaseKernels then some Err.fewCoinbaseKernels
      else
      match TxKernel.Validate x kernel with
      | some e => some e
      | none => Block.verifyKernelsLoop x coinbase rest
    else Block.verifyKernelsLoop x coinbase rest

/-- `Block.verifyKernels`. -/
def Block.verifyKernels (x : Ext) (b : Block) : Option Err :=
  Block.verifyKernelsLoop x 0 b.Kernels

/-- `Block.verifySorted`. -/
def Block.verifySorted (x : Ext) (b : Block) : Option Err :=
  if !sortIsSorted (InputList.Less x) b.Inputs then some Err.inputsNotSorted
  else if !sortIsSorted (OutputList.Less x) b.Outputs then some Err.outputsNotSorted
  else if !sortIsSorted (TxKernelList.Less x) b.Kernels then some Err.kernelsNotSorted
  else none

/-- The loop of `Block.verifyRangeProofs`. -/
def Block.verifyRangeProofsLoop (x : Ext) : List Output → Option Err
  | [] => none
  | output :: rest =>
    if !x.proverVerify output.Commit output.RangeProof then
      some (Err.proofVerificationFailed output.Commit output.RangeProof)
    else Block.verifyRangeProofsLoop x rest

/-- `Block.verifyRangeProofs`. -/
def Block.verifyRangeProofs (x : Ext) (b : Block) : Option Err :=
  Block.verifyRangeProofsLoop x b.Outputs

/-- `Block.Validate`. -/
def Block.Validate (x : Ext) (b : Block) : Option Err :=
  match BlockHeader.Validate x b.Header with
  | some e => some e
  | none =>
  if b.Outputs.length = 0 ∨ b.Kernels.length = 0 then some Err.invalidNoCoinbaseBlock
  else
  match Block.verifySorted x b with
  | some e => some e
  | none =>
  match Block.verifyCoinbase b with
  | some e => some e
  | none =>
  match Block.verifyRangeProofs x b with
  | some e => some e
  | none =>
  match Block.verifyKernels x b with
  | some e => some e
  | none => none

/-! ## The checks of block validation, as the specification lists them -/

/-- The first error of a list of check results, `none` when every check passed. -/
def firstError : List (Option Err) → Option Err
  | [] => none
  | some e :: _ => some e
  | none :: rest => firstError rest

/-- The results of the checks of block validation in the order of the specification: header
validation, the empty-block check, sortedness of inputs, of outputs, of kernels, the
coinbase-output scan, range-proof verification, the kernel scan. -/
def Block.checksInOrder (x : Ext) (b : Block) : List (Option Err) :=
  [ BlockHeader.Validate x b.Header,
    if b.Outputs.length = 0 ∨ b.Kernels.length = 0 then some Err.invalidNoCoinbaseBlock
    else none,
    if sortIsSorted (InputList.Less x) b.Inputs then none else some Err.inputsNotSorted,
    if sortIsSorted (OutputList.Less x) b.Outputs then none else some Err.outputsNotSorted,
    if sortIsSorted (TxKernelList.Less x) b.Kernels then none else some Err.kernelsNotSorted,
    Block.verifyCoinbase b,
    Block.verifyRangeProofs x b,
    Block.verifyKernels x b ]

/-- The outputs that carry the Coinbase flag. -/
def Output.isCoinbase (o : Output) : Bool :=
  decide (o.Features &&& CoinbaseOutput = CoinbaseOutput)

/-- The kernels that carry the Coinbase flag. -/
def TxKernel.isCoinbase (k : TxKernel) : Bool :=
  decide (k.Features &&& CoinbaseKernel = CoinbaseKernel)

/-- The contract of `sort.Sort` for the three lists of a block: the slice is permuted and
ends in the order that `sort.IsSorted` accepts. -/
def SortContract (x : Ext) : Prop :=
  (∀ l : List Input, (x.sortSort (InputList.Less x) l).Perm l
      ∧ sortIsSorted (InputList.Less x) (x.sortSort (InputList.Less x) l) = true)
  ∧ (∀ l : List Output, (x.sortSort (OutputList.Less x) l).Perm l
      ∧ sortIsSorted (OutputList.Less x) (x.sortSort (OutputList.Less x) l) = true)
  ∧ (∀ l : List TxKernel, (x.sortSort (TxKernelList.Less x) l).Perm l
      ∧ sortIsSorted (TxKernelList.Less x) (x.sortSort (TxKernelList.Less x) l) = true)

/-! ## A reference instantiation of the collaborators

Small stand-ins for the external services, used to run the definitions on concrete blocks. -/

/-- One step of insertion sort on the prefix held in reverse: the new element moves left
past every element it is `Less` than. -/
def insertLeftward {α : Type} (less : α → α → Bool) (e : α) : List α → List α
  | [] => [e]
  | p :: t => if less e p then p :: insertLeftward less e t else e :: p :: t

/-- Insertion sort, which is what `sort.Sort` runs on a short slice. -/
def insertionSort {α : Type} (less : α → α → Bool) (l : List α) : List α :=
  (l.foldl (fun acc e => insertLeftward less e acc) []).reverse

/-- A stand-in digest: the first 32 bytes of the zero-padded input. -/
def refDigest (bs : List Nat) : List Nat := (bs ++ List.replicate 32 0).take 32

/-- A stand-in point decoder: 33 bytes. -/
def refPointRead (p : Point) (r : Stream) : Option Nat × Point × Stream :=
  match ioReadFull (makeBytes 33) r with
  | (some _, _, r1) => (some 2, p, r1)
  | (none, bs, r1) => (none, ⟨bs⟩, r1)

/-- A stand-in proof-of-work decoder: the edge-bit byte, then 8 bytes. -/
def refPowRead (p : Proof) (r : Stream) : Option Nat × Proof × Stream :=
  match readUint8 r with
  | (some _, _, r1) => (some 3, p, r1)
  | (none, eb, r1) =>
    match ioReadFull (makeBytes 8) r1 with
    | (some _, _, r2) => (some 3, { p with EdgeBits := eb }, r2)
    | (none, bs, r2) => (none, ⟨eb, bs⟩, r2)

/-- The reference collaborators: a range proof verifies when it opens with the first byte of
its commitment, a signature when it opens with the message, a proof of work when its data
opens with a zero byte; the clock stands at 1700000000 s. -/
def refExt : Ext where
  blake2bSum256 := refDigest
  sha256Sum256 := refDigest
  sortSort := fun less l => insertionSort less l
  pointBytes := fun p => p.raw
  pointRead := refPointRead
  bulletProofBytes := fun p => p.raw
  bulletProofRead := fun _ r => (none, ⟨r⟩, [])
  proverVerify := fun c p => decide (p.raw.head? = c.raw.head?)
  ComputeMessage := fun fee lock => writeUint64 fee ++ writeUint64 lock
  DecodeSignature := fun bs => ⟨bs⟩
  VerifySignature := fun _ msg sig => decide (sig.raw.take 16 = msg)
  powBytes := fun p => writeUint8 p.EdgeBits ++ p.raw
  powProofBytes := fun p => p.raw
  powRead := refPowRead
  powValidate := fun p _ _ => if p.raw.head? = some 0 then none else some 1
  timeNow := ⟨1700000000, 0, 0⟩
  SecondPowEdgeBits := 29
  DefaultMinEdgeBits := 31
  BlockTimeSec := 60
  SecretKeySize := 32
  PedersenCommitmentSize := 33
  MaxProofSize := 5134

/-- A header that passes `BlockHeader.Validate` under the reference collaborators. -/
def refHeader : BlockHeader where
  Height := 7
  Previous := List.replicate 32 1
  PreviousRoot := List.replicate 32 2
  Timestamp := ⟨1699999000, 0, 0⟩
  UTXORoot := List.replicate 32 3
  RangeProofRoot := List.replicate 32 4
  KernelRoot := List.replicate 32 5
  Nonce := 99
  TotalKernelOffset := List.replicate 32 6
  TotalKernelSum := []
  OutputMmrSize := 10
  KernelMmrSize := 11
  POW := ⟨31, [0, 1, 2, 3, 4, 5, 6, 7]⟩
  Difficulty := 0

/-- A point whose 33 bytes open with `tag`. -/
def refPoint (tag : Nat) : Point := ⟨tag :: List.replicate 32 0⟩

/-- An output with the given features whose range proof verifies under `refExt`. -/
def refOutput (features tag : Nat) : Output := ⟨features, refPoint tag, ⟨[tag, 1, 2]⟩⟩

/-- A kernel with the given features whose signature verifies under `refExt`. -/
def refKernel (features fee : Nat) : TxKernel :=
  ⟨features, fee, 0, refPoint 9, writeUint64 fee ++ writeUint64 0 ++ List.replicate 48 0⟩

/-- A kernel with the given features whose signature does not verify under `refExt`. -/
def badKernel (features fee : Nat) : TxKernel :=
  ⟨features, fee, 0, refPoint 9, List.replicate 64 255⟩

/-- An input. -/
def refInput (tag : Nat) : Input := ⟨0, tag :: List.replicate 32 0⟩

/-- A block that passes `Block.Validate` under the reference collaborators: two inputs, a
plain output before a coinbase one, a plain kernel before a coinbase one. -/
def refBlock : Block where
  Header := refHeader
  Inputs := [refInput 1, refInput 2]
  Outputs := [refOutput 0 4, refOutput 1 3]
  Kernels := [refKernel 0 5, refKernel 1 0]

/-- The kernel scan told on the coinbase-flagged kernels alone: the first of them is
validated, a second one exceeds the quota. -/
def kernelScan (x : Ext) : List TxKernel → Option Err
  | [] => none
  | k :: rest =>
    match TxKernel.Validate x k with
    | some e => some e
    | none => if rest = [] then none else some Err.fewCoinbaseKernels

/-- The three errors of the count guard of `Block.Read`. -/
def Err.isTooMany : Err → Bool
  | Err.tooManyInputs => true
  | Err.tooManyOutputs => true
  | Err.tooManyKernels => true
  | _ => false

/-- The reference block with a single kernel, not coinbase-flagged, whose signature does not
verify. -/
def unsignedKernelBlock : Block := { refBlock with Kernels := [badKernel 0 5] }

/-- The reference block with a coinbase-flagged kernel whose signature does not verify. -/
def badCoinbaseKernelBlock : Block := { refBlock with Kernels := [refKernel 0 5, badKernel 1 0] }

/-- A header whose primary proof of work has too few edge bits. -/
def smallEdgeHeader : BlockHeader := { refHeader with POW := ⟨10, [0, 1, 2, 3, 4, 5, 6, 7]⟩ }

/-- A block without outputs under a header that fails validation. -/
def emptyBadHeaderBlock : Block := { refBlock with Header := smallEdgeHeader, Outputs := [] }

/-- The reference block without its outputs. -/
def noOutputsBlock : Block := { refBlock with Outputs := [] }

/-- The reference block with two coinbase-flagged outputs. -/
def twoCoinbaseOutputsBlock : Block := { refBlock with Outputs := [refOutput 1 3, refOutput 1 4] }

/-- The reference block with two coinbase-flagged kernels. -/
def twoCoinbaseKernelsBlock : Block := { refBlock with Kernels := [refKernel 1 0, refKernel 1 1] }

/-- The reference header with a difficulty and a total kernel sum set. -/
def difficultyHeader : BlockHeader := { refHeader with Difficulty := 5, TotalKernelSum := [1, 2, 3] }

/-- The reference block under the header with a difficulty and a total kernel sum. -/
def difficultyBlock : Block := { refBlock with Header := difficultyHeader }

/-- The reference block with each of its lists in descending hash order. -/
def shuffledBlock : Block :=
  { refBlock with
    Inputs := [refInput 2, refInput 1]
    Outputs := [refOutput 1 3, refOutput 0 4]
    Kernels := [refKernel 1 0, refKernel 0 5] }

/-- The reference block with the range proof of its second output replaced by one that the
reference verifier rejects. -/
def badProofBlock : Block :=
  { refBlock with Outputs := [refOutput 0 4, ⟨1, refPoint 3, ⟨[9]⟩⟩] }

/-- The reference output with another range proof for the same commitment. -/
def reprovedOutput : Output := { refOutput 0 4 with RangeProof := ⟨[4, 9, 9, 9]⟩ }

/-- The reference kernel with its features changed. -/
def reflaggedKernel : TxKernel := { refKernel 0 5 with Features := 1 }

/-- The reference header with a total kernel offset of three bytes. -/
def shortOffsetHeader : BlockHeader := { refHeader with TotalKernelOffset := [6, 6, 6] }

/-- The reference header with a timestamp 720 seconds and `nsec` nanoseconds after the
reference clock, 720 seconds being 12 block intervals of 60 seconds. -/
def aheadHeader (nsec : Nat) : BlockHeader :=
  { refHeader with Timestamp := ⟨1700000720, nsec, 0⟩ }

/-- The reference header with a proof of work of the secondary edge-bit width, which is
below the minimum for a primary proof. -/
def secondaryHeader : BlockHeader := { refHeader with POW := ⟨29, [0, 1, 2, 3, 4, 5, 6, 7]⟩ }

/-- A stream that holds a features byte, a commitment and the proof length 5135, one above
the reference `MaxProofSize`, followed by two more bytes. -/
def oversizedProofStream : Stream :=
  writeUint8 1 ++ (refPoint 3).raw ++ writeUint64 5135 ++ [7, 7]

/-- Within the list, elements with the same sort key are the same element: no two different
elements tie under the order of the key. -/
def KeysTellApart {α : Type} (key : α → List Nat) (l : List α) : Prop :=
  ∀ a ∈ l, ∀ b ∈ l, key a = key b → a = b

/-- In each list of the block, elements with the same hash are the same element. -/
def Block.HashesTellApart (x : Ext) (b : Block) : Prop :=
  KeysTellApart (Input.Hash x) b.Inputs ∧ KeysTellApart (Output.Hash x) b.Outputs
    ∧ KeysTellApart (TxKernel.Hash x) b.Kernels

/-- The reference block with two outputs of the same features and commitment, hence of the
same hash, that differ in their range proofs. -/
def tiedBlock : Block := { refBlock with Outputs := [refOutput 0 4, reprovedOutput] }

/-- The block `tiedBlock` with its two outputs in the other order. -/
def tiedBlockSwapped : Block := { refBlock with Outputs := [reprovedOutput, refOutput 0 4] }

/-- A stream that opens with the encoded reference header and declares 1,000,001 inputs, no
outputs and no kernels, followed by one more byte. -/
def oversizedCountStream : Stream :=
  (BlockHeader.Bytes refExt refHeader).getD [] ++ writeUint64 1000001 ++ writeUint64 0
    ++ writeUint64 0 ++ [42]

/-! ## What the wire format can carry -/

/-- A header that `BlockHeader.Bytes` encodes without the fatal exit: the five checked hash
fields have the length `BlockHashSize`. -/
structure BlockHeader.Encodable (h : BlockHeader) : Prop where
  previous : h.Previous.length = BlockHashSize
  previousRoot : h.PreviousRoot.length = BlockHashSize
  utxoRoot : h.UTXORoot.length = BlockHashSize
  rangeProofRoot : h.RangeProofRoot.length = BlockHashSize
  kernelRoot : h.KernelRoot.length = BlockHashSize

/-- A header that the wire format can carry: its integers fit their 64 bits, the five hash
fields have the length `BlockHashSize` and the kernel offset the length `SecretKeySize` that
the decoder reads, and its proof of work is read back from its own bytes. -/
structure BlockHeader.WellFormed (x : Ext) (h : BlockHeader) : Prop where
  height : h.Height < 2 ^ 64
  timestampLow : -(2 ^ 63) ≤ h.Timestamp.Unix
  timestampHigh : h.Timestamp.Unix < 2 ^ 63
  previous : h.Previous.length = BlockHashSize
  previousRoot : h.PreviousRoot.length = BlockHashSize
  utxoRoot : h.UTXORoot.length = BlockHashSize
  rangeProofRoot : h.RangeProofRoot.length = BlockHashSize
  kernelRoot : h.KernelRoot.length = BlockHashSize
  totalKernelOffset : h.TotalKernelOffset.length = x.SecretKeySize
  outputMmrSize : h.OutputMmrSize < 2 ^ 64
  kernelMmrSize : h.KernelMmrSize < 2 ^ 64
  nonce : h.Nonce < 2 ^ 64
  pow : ∀ (p0 : Proof) (rest : Stream), x.powRead p0 (x.powBytes h.POW ++ rest) = (none, h.POW, rest)

/-- An input that the wire format can carry: a one-byte features value and a commitment
of the length `PedersenCommitmentSize` that the decoder reads. -/
structure Input.WellFormed (x : Ext) (i : Input) : Prop where
  features : i.Features < 256
  commit : i.Commit.length = x.PedersenCommitmentSize

/-- An output that the wire format can carry: a one-byte features value, a commitment that
the point codec reads back from its own bytes, and a range proof whose bytes are within
`MaxProofSize` and that the proof codec reads back from exactly those bytes. -/
structure Output.WellFormed (x : Ext) (o : Output) : Prop where
  features : o.Features < 256
  commit : ∀ (rest : Stream),
    x.pointRead Point.zero (x.pointBytes o.Commit ++ rest) = (none, o.Commit, rest)
  proofSize : (x.bulletProofBytes o.RangeProof).length ≤ x.MaxProofSize
  proofSizeInt : (x.bulletProofBytes o.RangeProof).length < 2 ^ 63
  rangeProof :
    x.bulletProofRead BulletProof.zero (x.bulletProofBytes o.RangeProof) = (none, o.RangeProof, [])

/-- A kernel that the wire format can carry: a one-byte features value, 64-bit fee and lock
height, an excess that the point codec reads back from its own bytes, and the 64 bytes of
the signature array. -/
structure TxKernel.WellFormed (x : Ext) (k : TxKernel) : Prop where
  features : k.Features < 256
  fee : k.Fee < 2 ^ 64
  lockHeight : k.LockHeight < 2 ^ 64
  excess : ∀ (p0 : Point) (rest : Stream),
    x.pointRead p0 (x.pointBytes k.Excess ++ rest) = (none, k.Excess, rest)
  excessSig : k.ExcessSig.length = 64

/-- A block that the wire format can carry: a well-formed header, well-formed elements, and
no more than 1,000,000 elements in each list. -/
structure Block.WellFormed (x : Ext) (b : Block) : Prop where
  header : b.Header.WellFormed x
  inputs : ∀ i ∈ b.Inputs, i.WellFormed x
  outputs : ∀ o ∈ b.Outputs, o.WellFormed x
  kernels : ∀ k ∈ b.Kernels, k.WellFormed x
  inputCount : b.Inputs.length ≤ 1000000
  outputCount : b.Outputs.length ≤ 1000000
  kernelCount : b.Kernels.length ≤ 1000000

/-- The header as `BlockHeader.Read` rebuilds it in the receiver `b0` from the encoding of
`h`: the encoded fields of `h`, its timestamp as whole seconds in UTC, and the two fields
that are not encoded, left as they are in the receiver. -/
def BlockHeader.decodedInto (h b0 : BlockHeader) : BlockHeader :=
  { h with Timestamp := Time.unixUTC h.Timestamp.Unix,
           TotalKernelSum := b0.TotalKernelSum,
           Difficulty := b0.Difficulty }

/-- Strictly ascending order under `Less`: every element is `Less` than the next one. -/
def strictlyAscending {α : Type} (less : α → α → Bool) : List α → Bool
  | [] => true
  | [_] => true
  | a :: b :: t => less a b && strictlyAscending less (b :: t)

/-- The header layout of the specification: height, timestamp, previous hash, previous-root
hash, the three Merkle roots, kernel offset, output and kernel MMR sizes, nonce, then the
proof-of-work bytes. -/
def BlockHeader.layout (x : Ext) (h : BlockHeader) : List Nat :=
  writeUint64 h.Height ++ writeInt64 h.Timestamp.Unix ++ h.Previous ++ h.PreviousRoot
    ++ h.UTXORoot ++ h.RangeProofRoot ++ h.KernelRoot ++ h.TotalKernelOffset
    ++ writeUint64 h.OutputMmrSize ++ writeUint64 h.KernelMmrSize ++ writeUint64 h.Nonce
    ++ x.powBytes h.POW

/-- The block layout of the specification: the header, the three counts as 64-bit
big-endian integers, then the encodings of the inputs, of the outputs and of the kernels. -/
def Block.layout (x : Ext) (b : Block) : List Nat :=
  BlockHeader.layout x b.Header ++ writeUint64 b.Inputs.length ++ writeUint64 b.Outputs.length
    ++ writeUint64 b.Kernels.length ++ writeAll Input.Bytes b.Inputs
    ++ writeAll (Output.Bytes x) b.Outputs ++ writeAll (TxKernel.Bytes x) b.Kernels

/-- The block as `Block.Bytes` leaves it: each list sorted by `sort.Sort`. -/
def Block.sorted (x : Ext) (b : Block) : Block :=
  { Header := b.Header
    Inputs := x.sortSort (InputList.Less x) b.Inputs
    Outputs := x.sortSort (OutputList.Less x) b.Outputs
    Kernels := x.sortSort (TxKernelList.Less x) b.Kernels }

/-! ## Block validation: order of the checks -/

theorem firstError_eq_none (cs : List (Option Err)) :
    firstError cs = none ↔ ∀ c ∈ cs, c = none := by
  induction cs with
  | nil => simp [firstError]
  | cons c t ih =>
    cases c with
    | none => simp [firstError, ih]
    | some e => simp [firstError]

theorem firstError_of_take (cs : List (Option Err)) (i : Nat) (e : Err)
    (hbefore : ∀ c ∈ cs.take i, c = none) (hat : cs.get? i = some (some e)) :
    firstError cs = some e := by
  induction cs generalizing i with
  | nil => simp at hat
  | cons c t ih =>
    cases i with
    | zero =>
      simp at hat
      subst hat
      rfl
    | succ j =>
      have hc : c = none := hbefore c (by simp)
      subst hc
      simp only [firstError]
      apply ih j
      · intro d hd
        exact hbefore d (by simp [hd])
      · simpa using hat

theorem Block.Validate_eq_firstError (x : Ext) (b : Block) :
    Block.Validate x b = firstError (Block.checksInOrder x b) := by
  unfold Block.Validate Block.checksInOrder Block.verifySorted
  cases hh : BlockHeader.Validate x b.Header with
  | some e => simp [firstError]
  | none =>
    by_cases hempty : b.Outputs.length = 0 ∨ b.Kernels.length = 0
    · simp only [if_pos hempty, firstError]
    · simp only [if_neg hempty, firstError]
      cases hi : sortIsSorted (InputList.Less x) b.Inputs <;>
      cases ho : sortIsSorted (OutputList.Less x) b.Outputs <;>
      cases hk : sortIsSorted (TxKernelList.Less x) b.Kernels <;>
      cases hc : Block.verifyCoinbase b <;>
      cases hr : Block.verifyRangeProofs x b <;>
      cases hv : Block.verifyKernels x b <;>
      simp [firstError]

/-- C1. `Block.Validate` runs header validation, the empty-block check, the sortedness of
inputs, outputs and kernels, the coinbase-output scan, range-proof verification and the
kernel scan in that order and stops at the first failure: its result is the first error in
the ordered list of check results; a check that fails after checks that all pass gives its
error; and the result is nil exactly when every check passes. -/
theorem C1_validate_first_failing_check (x : Ext) (b : Block) :
    Block.Validate x b = firstError (Block.checksInOrder x b)
    ∧ (∀ (i : Nat) (e : Err), (∀ c ∈ (Block.checksInOrder x b).take i, c = none) →
        (Block.checksInOrder x b).get? i = some (some e) → Block.Validate x b = some e)
    ∧ (Block.Validate x b = none ↔ ∀ c ∈ Block.checksInOrder x b, c = none) := by
  refine ⟨Block.Validate_eq_firstError x b, ?_, ?_⟩
  · intro i e hbefore hat
    rw [Block.Validate_eq_firstError]
    exact firstError_of_take _ i e hbefore hat
  · rw [Block.Validate_eq_firstError]
    exact firstError_eq_none _

/-! ## Byte-wise comparison -/

theorem bytesCompare_self (a : List Nat) : bytesCompare a a = 0 := by
  induction a with
  | nil => rfl
  | cons h t ih => simp [bytesCompare, ih]

theorem bytesCompare_eq_zero (a b : List Nat) (h : bytesCompare a b = 0) : a = b := by
  induction a generalizing b with
  | nil =>
    cases b with
    | nil => rfl
    | cons _ _ => simp [bytesCompare] at h
  | cons ha ta ih =>
    cases b with
    | nil => simp [bytesCompare] at h
    | cons hb tb =>
      simp only [bytesCompare] at h
      split at h
      · omega
      · split at h
        · omega
        · have : ha = hb := by omega
          rw [this, ih tb h]

theorem bytesCompare_swap_neg (a b : List Nat) (h : 0 < bytesCompare a b) :
    bytesCompare b a < 0 := by
  induction a generalizing b with
  | nil =>
    cases b with
    | nil => simp [bytesCompare] at h
    | cons _ _ => simp [bytesCompare] at h
  | cons ha ta ih =>
    cases b with
    | nil => simp [bytesCompare]
    | cons hb tb =>
      simp only [bytesCompare] at h ⊢
      split at h
      · omega
      · split at h
        · simp [*]
        · rename_i h1 h2
          simp only [h1, h2, if_false]
          exact ih tb h

theorem bytesCompare_asymm (a b : List Nat) (h : bytesCompare a b < 0) :
    ¬ bytesCompare b a < 0 := by
  induction a generalizing b with
  | nil =>
    cases b with
    | nil => simp [bytesCompare] at h
    | cons _ _ => simp [bytesCompare]
  | cons ha ta ih =>
    cases b with
    | nil => simp [bytesCompare] at h
    | cons hb tb =>
      simp only [bytesCompare] at h ⊢
      split at h
      · rename_i h1
        have h2 : ¬ hb < ha := by omega
        simp [h1, h2]
      · split at h
        · omega
        · rename_i h1 h2
          simp only [h1, h2, if_false]
          exact ih tb h

/-- Two different byte strings are ordered one way or the other. -/
theorem bytesCompare_total (a b : List Nat) (hne : a ≠ b) (h : ¬ bytesCompare b a < 0) :
    bytesCompare a b < 0 := by
  have h0 : bytesCompare b a ≠ 0 := fun h0 => hne (bytesCompare_eq_zero b a h0).symm
  exact bytesCompare_swap_neg b a (by omega)

/-! ## sort.IsSorted -/

theorem sortIsSorted_append_pair {α : Type} (less : α → α → Bool) (pre post : List α)
    (a b : α) (h : sortIsSorted less (pre ++ a :: b :: post) = true) : less b a = false := by
  induction pre with
  | nil =>
    simp [sortIsSorted] at h
    exact h.1
  | cons p t ih =>
    cases t with
    | nil =>
      simp [sortIsSorted] at h
      exact h.2.1
    | cons q t2 =>
      simp only [List.cons_append, sortIsSorted, Bool.and_eq_true] at h
      exact ih (by simpa using h.2)

theorem sortIsSorted_false_of_pair {α : Type} (less : α → α → Bool) (pre post : List α)
    (a b : α) (h : less b a = true) : sortIsSorted less (pre ++ a :: b :: post) = false := by
  cases hs : sortIsSorted less (pre ++ a :: b :: post) with
  | false => rfl
  | true =>
    have := sortIsSorted_append_pair less pre post a b hs
    rw [h] at this
    cases this

/-! ## The coinbase scans -/

theorem Block.verifyCoinbaseLoop_eq (c : Nat) (l : List Output) (hc : c ≤ 1) :
    Block.verifyCoinbaseLoop c l =
      if 1 < c + (l.filter Output.isCoinbase).length then some Err.fewCoinbaseOutputs
      else none := by
  induction l generalizing c with
  | nil =>
    have : ¬ 1 < c := by omega
    simp [Block.verifyCoinbaseLoop, this]
  | cons o t ih =>
    unfold Block.verifyCoinbaseLoop
    by_cases ho : o.Features &&& CoinbaseOutput = CoinbaseOutput
    · have hcb : Output.isCoinbase o = true := by simp [Output.isCoinbase, ho]
      simp only [if_pos ho, List.filter_cons, hcb, if_true, List.length_cons,
        MaxBlockCoinbaseOutputs, Output.Validate]
      by_cases h1 : c + 1 > 1
      · have h2 : 1 < c + ((t.filter Output.isCoinbase).length + 1) := by omega
        simp only [if_pos h1, if_pos h2]
      · simp only [if_neg h1]
        rw [ih (c + 1) (by omega)]
        have e : c + 1 + (t.filter Output.isCoinbase).length
            = c + ((t.filter Output.isCoinbase).length + 1) := by omega
        rw [e]
    · have hcb : Output.isCoinbase o = false := by simp [Output.isCoinbase, ho]
      simp only [if_neg ho, List.filter_cons, hcb]
      exact ih c hc

theorem Block.verifyKernelsLoop_one (x : Ext) (l : List TxKernel) :
    Block.verifyKernelsLoop x 1 l =
      if l.filter TxKernel.isCoinbase = [] then none else some Err.fewCoinbaseKernels := by
  induction l with
  | nil => simp [Block.verifyKernelsLoop]
  | cons k t ih =>
    unfold Block.verifyKernelsLoop
    by_cases hk : k.Features &&& CoinbaseKernel = CoinbaseKernel
    · have hcb : TxKernel.isCoinbase k = true := by simp [TxKernel.isCoinbase, hk]
      simp [hk, List.filter_cons, hcb, MaxBlockCoinbaseKernels]
    · have hcb : TxKernel.isCoinbase k = false := by simp [TxKernel.isCoinbase, hk]
      simp only [if_neg hk, List.filter_cons, hcb]
      exact ih

theorem Block.verifyKernelsLoop_zero (x : Ext) (l : List TxKernel) :
    Block.verifyKernelsLoop x 0 l = kernelScan x (l.filter TxKernel.isCoinbase) := by
  induction l with
  | nil => simp [Block.verifyKernelsLoop, kernelScan]
  | cons k t ih =>
    unfold Block.verifyKernelsLoop
    by_cases hk : k.Features &&& CoinbaseKernel = CoinbaseKernel
    · have hcb : TxKernel.isCoinbase k = true := by simp [TxKernel.isCoinbase, hk]
      simp only [if_pos hk, List.filter_cons, hcb, if_true, kernelScan, MaxBlockCoinbaseKernels]
      have h1 : ¬ (0 + 1 > 1) := by omega
      simp only [if_neg h1]
      cases hv : TxKernel.Validate x k with
      | some e => rfl
      | none => exact Block.verifyKernelsLoop_one x t
    · have hcb : TxKernel.isCoinbase k = false := by simp [TxKernel.isCoinbase, hk]
      simp only [if_neg hk, List.filter_cons, hcb]
      exact ih

theorem TxKernel.Validate_eq (x : Ext) (k : TxKernel) :
    TxKernel.Validate x k =
      if x.VerifySignature k.Excess (x.ComputeMessage k.Fee k.LockHeight)
          (x.DecodeSignature k.ExcessSig) = true then none
      else some Err.ErrInvalidSignature := by
  unfold TxKernel.Validate
  cases hv : x.VerifySignature k.Excess (x.ComputeMessage k.Fee k.LockHeight)
    (x.DecodeSignature k.ExcessSig) <;> simp [hv]

theorem Block.Validate_of_earlier (x : Ext) (b : Block)
    (hheader : BlockHeader.Validate x b.Header = none)
    (hout : b.Outputs ≠ []) (hker : b.Kernels ≠ [])
    (hsorted : Block.verifySorted x b = none) :
    Block.Validate x b =
      match Block.verifyCoinbase b with
      | some e => some e
      | none =>
        match Block.verifyRangeProofs x b with
        | some e => some e
        | none => Block.verifyKernels x b := by
  unfold Block.Validate
  have hempty : ¬ (b.Outputs.length = 0 ∨ b.Kernels.length = 0) := by
    simp [hout, hker]
  simp only [hheader, if_neg hempty, hsorted]
  cases Block.verifyCoinbase b <;> cases Block.verifyRangeProofs x b <;>
    cases Block.verifyKernels x b <;> rfl

/-! ## Claims on block validation -/

/-- C2 (counterexample). Under the reference collaborators a block that passes every check
before the kernel scan and whose only kernel, not coinbase-flagged, carries a signature that
does not verify is accepted by `Block.Validate`. -/
theorem C2_counterexample_unflagged_kernel_not_checked :
    BlockHeader.Validate refExt unsignedKernelBlock.Header = none
    ∧ unsignedKernelBlock.Outputs ≠ [] ∧ unsignedKernelBlock.Kernels ≠ []
    ∧ Block.verifySorted refExt unsignedKernelBlock = none
    ∧ Block.verifyCoinbase unsignedKernelBlock = none
    ∧ Block.verifyRangeProofs refExt unsignedKernelBlock = none
    ∧ (∃ k ∈ unsignedKernelBlock.Kernels,
        refExt.VerifySignature k.Excess (refExt.ComputeMessage k.Fee k.LockHeight)
          (refExt.DecodeSignature k.ExcessSig) = false)
    ∧ Block.Validate refExt unsignedKernelBlock ≠ some Err.ErrInvalidSignature
    ∧ Block.Validate refExt unsignedKernelBlock = none := by
  decide

/-- C2 (amended). During block validation `TxKernel.Validate` is called on coinbase-flagged
kernels only: for every block that passes the checks before the kernel scan,
`Block.Validate` fails with the invalid-signature error exactly when the first
coinbase-flagged kernel of `Kernels` has an `ExcessSig` that does not verify against its
`Excess` for the message built from `(Fee, LockHeight)`; when no kernel is coinbase-flagged
the block is accepted whatever the signatures of its kernels. -/
theorem C2_signature_checked_on_first_coinbase_kernel (x : Ext) (b : Block)
    (hheader : BlockHeader.Validate x b.Header = none)
    (hout : b.Outputs ≠ []) (hker : b.Kernels ≠ [])
    (hsorted : Block.verifySorted x b = none)
    (hcoinbase : Block.verifyCoinbase b = none)
    (hproofs : Block.verifyRangeProofs x b = none) :
    (Block.Validate x b = some Err.ErrInvalidSignature ↔
      ∃ k rest, b.Kernels.filter TxKernel.isCoinbase = k :: rest
        ∧ x.VerifySignature k.Excess (x.ComputeMessage k.Fee k.LockHeight)
            (x.DecodeSignature k.ExcessSig) = false)
    ∧ (b.Kernels.filter TxKernel.isCoinbase = [] → Block.Validate x b = none) := by
  have hv : Block.Validate x b = kernelScan x (b.Kernels.filter TxKernel.isCoinbase) := by
    rw [Block.Validate_of_earlier x b hheader hout hker hsorted, hcoinbase, hproofs]
    exact Block.verifyKernelsLoop_zero x b.Kernels
  rw [hv]
  constructor
  · constructor
    · intro h
      cases hf : b.Kernels.filter TxKernel.isCoinbase with
      | nil => simp [hf, kernelScan] at h
      | cons k rest =>
        refine ⟨k, rest, rfl, ?_⟩
        rw [hf] at h
        simp only [kernelScan, TxKernel.Validate_eq] at h
        cases hs : x.VerifySignature k.Excess (x.ComputeMessage k.Fee k.LockHeight)
          (x.DecodeSignature k.ExcessSig) with
        | false => rfl
        | true =>
          rw [hs] at h
          by_cases hr : rest = [] <;> simp [hr] at h
    · rintro ⟨k, rest, hf, hs⟩
      rw [hf]
      simp [kernelScan, TxKernel.Validate_eq, hs]
  · intro hf
    rw [hf]
    rfl

/-- C2 (witness). The reference block whose coinbase-flagged kernel carries a bad signature
is refused with the invalid-signature error. -/
theorem C2_witness_bad_coinbase_kernel :
    Block.Validate refExt badCoinbaseKernelBlock = some Err.ErrInvalidSignature :=
  (C2_signature_checked_on_first_coinbase_kernel refExt badCoinbaseKernelBlock
    (by decide) (by decide) (by decide) (by decide) (by decide) (by decide)).1.2
    ⟨badKernel 1 0, [], by decide, by decide⟩

/-- C7 (counterexample). Under the reference collaborators a block without outputs whose
header fails validation is refused with the header's error, not with the empty-block
error. -/
theorem C7_counterexample_header_error_first :
    emptyBadHeaderBlock.Outputs = []
    ∧ Block.Validate refExt emptyBadHeaderBlock = some (Err.cuckooSizeTooSmall 10)
    ∧ Block.Validate refExt emptyBadHeaderBlock ≠ some Err.invalidNoCoinbaseBlock := by
  decide

/-- C7 (amended). A block with zero outputs, or with zero kernels, always fails
`Block.Validate`: with the error of header validation when the header is invalid, and with
the empty-block error ("invalid nocoinbase block") when the header is valid. -/
theorem C7_empty_block_rejected (x : Ext) (b : Block)
    (hempty : b.Outputs = [] ∨ b.Kernels = []) :
    Block.Validate x b ≠ none
    ∧ (∀ e, BlockHeader.Validate x b.Header = some e → Block.Validate x b = some e)
    ∧ (BlockHeader.Validate x b.Header = none →
        Block.Validate x b = some Err.invalidNoCoinbaseBlock) := by
  have hlen : b.Outputs.length = 0 ∨ b.Kernels.length = 0 := by
    rcases hempty with h | h
    · exact Or.inl (by simp [h])
    · exact Or.inr (by simp [h])
  unfold Block.Validate
  cases hh : BlockHeader.Validate x b.Header with
  | some e => simp
  | none => simp only [if_pos hlen]; simp

/-- C7 (witness). The reference block without its outputs, whose header is valid, is refused
with the empty-block error. -/
theorem C7_witness_no_outputs :
    Block.Validate refExt noOutputsBlock = some Err.invalidNoCoinbaseBlock :=
  (C7_empty_block_rejected refExt noOutputsBlock (Or.inl rfl)).2.2 (by decide)

/-- C8. The coinbase-output scan fails, with the too-many-coinbase-outputs error, if and
only if more than one output has the Coinbase flag set, and passes with zero or one such
output; a block with two or more coinbase-flagged outputs that passes the earlier checks
fails `Block.Validate` with that error. -/
theorem C8_coinbase_output_quota (x : Ext) (b : Block) :
    (Block.verifyCoinbase b = some Err.fewCoinbaseOutputs ↔
      1 < (b.Outputs.filter Output.isCoinbase).length)
    ∧ (Block.verifyCoinbase b = none ↔ (b.Outputs.filter Output.isCoinbase).length ≤ 1)
    ∧ (∀ e, Block.verifyCoinbase b = some e → e = Err.fewCoinbaseOutputs)
    ∧ (BlockHeader.Validate x b.Header = none → b.Kernels ≠ [] →
        Block.verifySorted x b = none →
        2 ≤ (b.Outputs.filter Output.isCoinbase).length →
        Block.Validate x b = some Err.fewCoinbaseOutputs) := by
  have hscan := Block.verifyCoinbaseLoop_eq 0 b.Outputs (by omega)
  simp only [Nat.zero_add] at hscan
  have hv : Block.verifyCoinbase b =
      if 1 < (b.Outputs.filter Output.isCoinbase).length then some Err.fewCoinbaseOutputs
      else none := hscan
  refine ⟨?_, ?_, ?_, ?_⟩
  · rw [hv]
    by_cases h : 1 < (b.Outputs.filter Output.isCoinbase).length <;> simp [h]
  · rw [hv]
    by_cases h : 1 < (b.Outputs.filter Output.isCoinbase).length
    · simp [h]
    · simp only [if_neg h, true_iff]
      omega
  · intro e he
    rw [hv] at he
    by_cases h : 1 < (b.Outputs.filter Output.isCoinbase).length
    · simp only [if_pos h, Option.some.injEq] at he
      exact he.symm
    · simp [h] at he
  · intro hheader hker hsorted hcount
    have hout : b.Outputs ≠ [] := by
      intro h
      rw [h] at hcount
      simp at hcount
    rw [Block.Validate_of_earlier x b hheader hout hker hsorted, hv]
    have h : 1 < (b.Outputs.filter Output.isCoinbase).length := by omega
    simp only [if_pos h]

/-- C8 (witness). The reference block with two coinbase-flagged outputs is refused with the
too-many-coinbase-outputs error. -/
theorem C8_witness_two_coinbase_outputs :
    Block.Validate refExt twoCoinbaseOutputsBlock = some Err.fewCoinbaseOutputs :=
  (C8_coinbase_output_quota refExt twoCoinbaseOutputsBlock).2.2.2
    (by decide) (by decide) (by decide) (by decide)

/-- C9. For every block whose kernel list holds two or more coinbase-flagged kernels the
kernel scan fails, and it fails with the too-many-coinbase-kernels error whenever the
signature of the first coinbase-flagged kernel verifies; with exactly one coinbase-flagged
kernel, whose signature verifies, the kernel scan passes. -/
theorem C9_coinbase_kernel_quota (x : Ext) (b : Block) :
    (2 ≤ (b.Kernels.filter TxKernel.isCoinbase).length → Block.verifyKernels x b ≠ none)
    ∧ (∀ k, 2 ≤ (b.Kernels.filter TxKernel.isCoinbase).length →
        (b.Kernels.filter TxKernel.isCoinbase).head? = some k →
        x.VerifySignature k.Excess (x.ComputeMessage k.Fee k.LockHeight)
          (x.DecodeSignature k.ExcessSig) = true →
        Block.verifyKernels x b = some Err.fewCoinbaseKernels)
    ∧ (∀ k, b.Kernels.filter TxKernel.isCoinbase = [k] →
        x.VerifySignature k.Excess (x.ComputeMessage k.Fee k.LockHeight)
          (x.DecodeSignature k.ExcessSig) = true →
        Block.verifyKernels x b = none) := by
  have hv : Block.verifyKernels x b = kernelScan x (b.Kernels.filter TxKernel.isCoinbase) :=
    Block.verifyKernelsLoop_zero x b.Kernels
  rw [hv]
  refine ⟨?_, ?_, ?_⟩
  · intro hcount
    cases hf : b.Kernels.filter TxKernel.isCoinbase with
    | nil => simp [hf] at hcount
    | cons k rest =>
      have hr : rest ≠ [] := by
        intro h
        simp [hf, h] at hcount
      simp only [kernelScan]
      cases TxKernel.Validate x k <;> simp [hr]
  · intro k hcount hhead hsig
    cases hf : b.Kernels.filter TxKernel.isCoinbase with
    | nil => simp [hf] at hcount
    | cons k2 rest =>
      have hr : rest ≠ [] := by
        intro h
        simp [hf, h] at hcount
      have hk : k2 = k := by simpa [hf] using hhead
      subst hk
      simp [kernelScan, TxKernel.Validate_eq, hsig, hr]
  · intro k hf hsig
    rw [hf]
    simp [kernelScan, TxKernel.Validate_eq, hsig]

/-- C9 (witness). The kernel scan of the reference block with two coinbase-flagged kernels,
the first correctly signed, fails with the too-many-coinbase-kernels error. -/
theorem C9_witness_two_coinbase_kernels :
    Block.verifyKernels refExt twoCoinbaseKernelsBlock = some Err.fewCoinbaseKernels :=
  (C9_coinbase_kernel_quota refExt twoCoinbaseKernelsBlock).2.1 (refKernel 1 0)
    (by decide) (by decide) (by decide)

/-- C10. For every block with a valid header, non-empty outputs and kernels and sorted
inputs, outputs that are not in ascending hash order make `Block.Validate` return the
unsorted-outputs error, whatever the later checks would give; and swapping two adjacent
outputs with different hashes in a block that `Block.Validate` accepts breaks the order and
makes validation fail with that error. -/
theorem C10_unsorted_outputs_rejected (x : Ext) (b : Block) :
    (BlockHeader.Validate x b.Header = none → b.Outputs ≠ [] → b.Kernels ≠ [] →
      sortIsSorted (InputList.Less x) b.Inputs = true →
      sortIsSorted (OutputList.Less x) b.Outputs = false →
      Block.Validate x b = some Err.outputsNotSorted)
    ∧ (∀ (pre post : List Output) (o1 o2 : Output),
        Block.Validate x b = none → b.Outputs = pre ++ o1 :: o2 :: post →
        Output.Hash x o1 ≠ Output.Hash x o2 →
        sortIsSorted (OutputList.Less x) (pre ++ o2 :: o1 :: post) = false
        ∧ Block.Validate x { b with Outputs := pre ++ o2 :: o1 :: post }
            = some Err.outputsNotSorted) := by
  have general : ∀ c : Block, BlockHeader.Validate x c.Header = none → c.Outputs ≠ [] →
      c.Kernels ≠ [] → sortIsSorted (InputList.Less x) c.Inputs = true →
      sortIsSorted (OutputList.Less x) c.Outputs = false →
      Block.Validate x c = some Err.outputsNotSorted := by
    intro c hheader hout hker hin hnot
    have hempty : ¬ (c.Outputs.length = 0 ∨ c.Kernels.length = 0) := by
      simp [hout, hker]
    unfold Block.Validate Block.verifySorted
    simp only [hheader, if_neg hempty, hin, hnot]
    rfl
  refine ⟨general b, ?_⟩
  intro pre post o1 o2 hvalid hshape hne
  have hall := (firstError_eq_none _).mp ((Block.Validate_eq_firstError x b).symm.trans hvalid)
  simp only [Block.checksInOrder, List.mem_cons, List.mem_singleton, forall_eq_or_imp,
    forall_eq] at hall
  obtain ⟨hheader, hempty, hin, hout, -⟩ := hall
  have hempty2 : ¬ (b.Outputs.length = 0 ∨ b.Kernels.length = 0) := by
    intro h
    simp only [if_pos h] at hempty
    cases hempty
  have hin2 : sortIsSorted (InputList.Less x) b.Inputs = true := by
    by_contra h
    simp only [if_neg h] at hin
    cases hin
  have hout2 : sortIsSorted (OutputList.Less x) b.Outputs = true := by
    by_contra h
    simp only [if_neg h] at hout
    cases hout
  rw [hshape] at hout2
  have hle : OutputList.Less x o2 o1 = false := sortIsSorted_append_pair _ pre post o1 o2 hout2
  have hlt : OutputList.Less x o1 o2 = true := by
    simp only [OutputList.Less, decide_eq_false_iff_not, decide_eq_true_eq] at hle ⊢
    exact bytesCompare_total _ _ hne hle
  have hbroken := sortIsSorted_false_of_pair (OutputList.Less x) pre post o2 o1 hlt
  refine ⟨hbroken, ?_⟩
  apply general
  · exact hheader
  · simp
  · intro h
    have hk : b.Kernels = [] := h
    exact hempty2 (Or.inr (by simp [hk]))
  · exact hin2
  · exact hbroken

/-- C10 (witness). Swapping the two outputs of the reference block, which validation
accepts, gives a block refused with the unsorted-outputs error. -/
theorem C10_witness_swapped_outputs :
    Block.Validate refExt { refBlock with Outputs := [refOutput 1 3, refOutput 0 4] }
      = some Err.outputsNotSorted :=
  ((C10_unsorted_outputs_rejected refExt refBlock).2 [] [] (refOutput 0 4) (refOutput 1 3)
    (by decide) rfl (by decide)).2

/-! ## The count guard of `Block.Read` -/

theorem ioReadFull_err {buf : List Nat} {r : Stream} {e : Err} {bs : List Nat} {r1 : Stream}
    (h : ioReadFull buf r = (some e, bs, r1)) : e.isTooMany = false := by
  unfold ioReadFull at h
  split at h
  · simp at h
  · split at h <;> (simp at h; rw [← h.1]; rfl)

theorem readUint8_err {r : Stream} {e : Err} {v : Nat} {r1 : Stream}
    (h : readUint8 r = (some e, v, r1)) : e.isTooMany = false := by
  unfold readUint8 at h
  rcases hf : ioReadFull (makeBytes 1) r with ⟨e1, bs, r2⟩
  rw [hf] at h
  simp only [Prod.mk.injEq] at h
  rw [h.1] at hf
  exact ioReadFull_err hf

theorem readUint64_err {r : Stream} {e : Err} {v : Nat} {r1 : Stream}
    (h : readUint64 r = (some e, v, r1)) : e.isTooMany = false := by
  unfold readUint64 at h
  rcases hf : ioReadFull (makeBytes 8) r with ⟨e1, bs, r2⟩
  rw [hf] at h
  simp only [Prod.mk.injEq] at h
  rw [h.1] at hf
  exact ioReadFull_err hf

theorem inputRead_err (x : Ext) (s : Input) (r : Stream) (e : Err)
    (h : (Input.Read x s r).err = some e) : e.isTooMany = false := by
  unfold Input.Read at h
  repeat' split at h
  all_goals simp only [Option.some.injEq, reduceCtorEq] at h
  all_goals subst h
  all_goals first
    | rfl
    | exact readUint8_err (by assumption)
    | exact readUint64_err (by assumption)
    | exact ioReadFull_err (by assumption)

theorem outputRead_err (x : Ext) (s : Output) (r : Stream) (e : Err)
    (h : (Output.Read x s r).err = some e) : e.isTooMany = false := by
  unfold Output.Read at h
  repeat' split at h
  all_goals simp only [Option.some.injEq, reduceCtorEq] at h
  all_goals subst h
  all_goals first
    | rfl
    | exact readUint8_err (by assumption)
    | exact readUint64_err (by assumption)

theorem kernelRead_err (x : Ext) (s : TxKernel) (r : Stream) (e : Err)
    (h : (TxKernel.Read x s r).err = some e) : e.isTooMany = false := by
  unfold TxKernel.Read at h
  split at h
  · simp only [Option.some.injEq] at h
    subst h
    exact readUint8_err (by assumption)
  split at h
  · simp only [Option.some.injEq] at h
    subst h
    exact readUint64_err (by assumption)
  split at h
  · simp only [Option.some.injEq] at h
    subst h
    exact readUint64_err (by assumption)
  dsimp only at h
  split at h
  · simp only [Option.some.injEq] at h
    subst h
    rfl
  split at h
  · simp only [Option.some.injEq] at h
    subst h
    exact ioReadFull_err (by assumption)
  · simp at h

theorem readAll_err {α : Type} (read : α → Stream → Res α) (zero : α)
    (hread : ∀ s r e, (read s r).err = some e → e.isTooMany = false) (n : Nat) (r : Stream)
    (e : Err) (h : (readAll read zero n r).err = some e) : e.isTooMany = false := by
  induction n generalizing r with
  | zero => simp [readAll] at h
  | succ n ih =>
    simp only [readAll] at h
    split at h
    · rename_i e1 heq
      simp at h
      subst h
      exact hread _ _ _ heq
    · exact ih _ h

theorem readUint64_of_length (r : Stream) (h : 8 ≤ r.length) :
    readUint64 r = (none, bigEndianGet (r.take 8), r.drop 8) := by
  simp [readUint64, ioReadFull, makeBytes, h]

theorem readAll_length {α : Type} (read : α → Stream → Res α) (zero : α) (n : Nat)
    (r : Stream) : (readAll read zero n r).self.length = n := by
  induction n generalizing r with
  | zero => simp [readAll]
  | succ n ih =>
    simp only [readAll]
    split
    · simp
    · simp [ih]

theorem Block.Read_counts (x : Ext) (b : Block) (r r0 : Stream) (h : BlockHeader)
    (hheader : BlockHeader.Read x b.Header r = ⟨none, h, r0⟩) (hcounts : 24 ≤ r0.length) :
    Block.Read x b r =
      let inputs := bigEndianGet (r0.take 8)
      let outputs := bigEndianGet ((r0.drop 8).take 8)
      let kernels := bigEndianGet ((r0.drop 16).take 8)
      let b1 : Block := { b with Header := h }
      if inputs > 1000000 then ⟨some Err.tooManyInputs, b1, r0.drop 24⟩
      else if outputs > 1000000 then ⟨some Err.tooManyOutputs, b1, r0.drop 24⟩
      else if kernels > 1000000 then ⟨some Err.tooManyKernels, b1, r0.drop 24⟩
      else
      let ins := readAll (Input.Read x) Input.zero inputs (r0.drop 24)
      let b2 : Block := { b1 with Inputs := ins.self }
      match ins.err with
      | some e => ⟨some e, b2, ins.rest⟩
      | none =>
      let outs := readAll (Output.Read x) Output.zero outputs ins.rest
      let b3 : Block := { b2 with Outputs := outs.self }
      match outs.err with
      | some e => ⟨some e, b3, outs.rest⟩
      | none =>
      let kers := readAll (TxKernel.Read x) TxKernel.zero kernels outs.rest
      let b4 : Block := { b3 with Kernels := kers.self }
      match kers.err with
      | some e => ⟨some e, b4, kers.rest⟩
      | none => ⟨none, b4, kers.rest⟩ := by
  unfold Block.Read
  simp only [hheader]
  rw [readUint64_of_length r0 (by omega)]
  simp only []
  rw [readUint64_of_length (r0.drop 8) (by simp; omega)]
  simp only []
  rw [readUint64_of_length ((r0.drop 8).drop 8) (by simp; omega)]
  simp only [List.drop_drop]

/-- C5. For every byte stream whose header decodes and whose three 64-bit counts are present,
`Block.Read` fails with the too-many-inputs, too-many-outputs or too-many-kernels error when
the declared input, output or kernel count exceeds 1,000,000, the input count being reported
before the output count and the output count before the kernel count; it then has consumed
nothing after the counts and leaves the three collections of the receiver as they were; when
no count exceeds 1,000,000 (so also at exactly 1,000,000) the guard passes: the input list is
made with the declared length and whatever error is returned is none of the three. -/
theorem C5_count_guard (x : Ext) (b : Block) (r r0 : Stream) (h : BlockHeader)
    (inputs outputs kernels : Nat)
    (hheader : BlockHeader.Read x b.Header r = ⟨none, h, r0⟩) (hcounts : 24 ≤ r0.length)
    (hinputs : bigEndianGet (r0.take 8) = inputs)
    (houtputs : bigEndianGet ((r0.drop 8).take 8) = outputs)
    (hkernels : bigEndianGet ((r0.drop 16).take 8) = kernels) :
    (1000000 < inputs →
      Block.Read x b r = ⟨some Err.tooManyInputs, { b with Header := h }, r0.drop 24⟩)
    ∧ (inputs ≤ 1000000 → 1000000 < outputs →
      Block.Read x b r = ⟨some Err.tooManyOutputs, { b with Header := h }, r0.drop 24⟩)
    ∧ (inputs ≤ 1000000 → outputs ≤ 1000000 → 1000000 < kernels →
      Block.Read x b r = ⟨some Err.tooManyKernels, { b with Header := h }, r0.drop 24⟩)
    ∧ (inputs ≤ 1000000 → outputs ≤ 1000000 → kernels ≤ 1000000 →
      (Block.Read x b r).self.Inputs.length = inputs
      ∧ ∀ e, (Block.Read x b r).err = some e → e.isTooMany = false) := by
  have hread := Block.Read_counts x b r r0 h hheader hcounts
  simp only [hinputs, houtputs, hkernels] at hread
  rw [hread]
  refine ⟨?_, ?_, ?_, ?_⟩
  · intro hi
    simp only [gt_iff_lt, if_pos hi]
  · intro hi ho
    have hi2 : ¬ 1000000 < inputs := by omega
    simp only [gt_iff_lt, if_neg hi2, if_pos ho]
  · intro hi ho hk
    have hi2 : ¬ 1000000 < inputs := by omega
    have ho2 : ¬ 1000000 < outputs := by omega
    simp only [gt_iff_lt, if_neg hi2, if_neg ho2, if_pos hk]
  · intro hi ho hk
    have hi2 : ¬ 1000000 < inputs := by omega
    have ho2 : ¬ 1000000 < outputs := by omega
    have hk2 : ¬ 1000000 < kernels := by omega
    simp only [gt_iff_lt, if_neg hi2, if_neg ho2, if_neg hk2]
    cases hie : (readAll (Input.Read x) Input.zero inputs (r0.drop 24)).err with
    | some e1 =>
      refine ⟨by simp [readAll_length], ?_⟩
      intro e he
      simp only [Option.some.injEq] at he
      subst he
      exact readAll_err _ _ (inputRead_err x) _ _ _ hie
    | none =>
      cases hoe : (readAll (Output.Read x) Output.zero outputs
          (readAll (Input.Read x) Input.zero inputs (r0.drop 24)).rest).err with
      | some e1 =>
        refine ⟨by simp [readAll_length], ?_⟩
        intro e he
        simp only [Option.some.injEq] at he
        subst he
        exact readAll_err _ _ (outputRead_err x) _ _ _ hoe
      | none =>
        cases hke : (readAll (TxKernel.Read x) TxKernel.zero kernels
            (readAll (Output.Read x) Output.zero outputs
              (readAll (Input.Read x) Input.zero inputs (r0.drop 24)).rest).rest).err with
        | some e1 =>
          refine ⟨by simp [readAll_length], ?_⟩
          intro e he
          simp only [Option.some.injEq] at he
          subst he
          exact readAll_err _ _ (kernelRead_err x) _ _ _ hke
        | none =>
          refine ⟨by simp [readAll_length], ?_⟩
          intro e he
          simp at he

/-- C5 (witness). On a stream that holds the reference header and declares 1,000,001 inputs,
`Block.Read` into an empty block fails with the too-many-inputs error, with the header decoded,
the three lists still empty and the byte after the counts unread. -/
theorem C5_witness_oversized_input_count :
    Block.Read refExt Block.zero oversizedCountStream
      = ⟨some Err.tooManyInputs, { Block.zero with Header := refHeader }, [42]⟩ := by
  rw [(C5_count_guard refExt Block.zero oversizedCountStream
    (writeUint64 1000001 ++ writeUint64 0 ++ writeUint64 0 ++ [42]) refHeader 1000001 0 0
    (by decide) (by decide) (by decide) (by decide) (by decide)).1 (by decide)]
  decide

/-! ## Wire primitives: reading back what was written -/

theorem ioReadFull_append (buf bs rest : List Nat) (h : buf.length = bs.length) :
    ioReadFull buf (bs ++ rest) = (none, bs, rest) := by
  simp [ioReadFull, h]

theorem bigEndianPut_length (w v : Nat) : (bigEndianPut w v).length = w := by
  induction w with
  | zero => rfl
  | succ n ih => simp [bigEndianPut, ih]

theorem bigEndianGet_put8 (v : Nat) (h : v < 2 ^ 64) : bigEndianGet (bigEndianPut 8 v) = v := by
  simp only [bigEndianPut, bigEndianGet, List.foldl]
  norm_num
  omega

theorem readUint64_write (v : Nat) (rest : Stream) :
    readUint64 (writeUint64 v ++ rest) = (none, v % 2 ^ 64, rest) := by
  unfold readUint64 writeUint64
  rw [ioReadFull_append _ _ _ (by simp [makeBytes, bigEndianPut_length])]
  simp only []
  rw [bigEndianGet_put8 _ (Nat.mod_lt _ (by norm_num))]

theorem readUint8_write (v : Nat) (rest : Stream) :
    readUint8 (writeUint8 v ++ rest) = (none, v % 256, rest) := by
  unfold readUint8 writeUint8
  rw [ioReadFull_append _ _ _ (by simp [makeBytes])]
  simp [bigEndianGet]

theorem readInt64_write (v : Int) (rest : Stream) (hlo : -(2 ^ 63) ≤ v) (hhi : v < 2 ^ 63) :
    readInt64 (writeInt64 v ++ rest) = (none, v, rest) := by
  unfold readInt64 writeInt64
  rw [ioReadFull_append _ _ _ (by simp [makeBytes, bigEndianPut_length])]
  simp only []
  have hlt : (v % 2 ^ 64).toNat < 2 ^ 64 := by omega
  rw [bigEndianGet_put8 _ hlt]
  simp only [Prod.mk.injEq, true_and, and_true]
  split <;> omega

/-! ## Header round trip -/

theorem ioReadFull_make (n : Nat) (bs rest : List Nat) (h : bs.length = n) :
    ioReadFull (makeBytes n) (bs ++ rest) = (none, bs, rest) :=
  ioReadFull_append _ _ _ (by simp [makeBytes, h])

theorem headerBytes_of_encodable (x : Ext) (h : BlockHeader) (henc : h.Encodable) :
    BlockHeader.Bytes x h = some (BlockHeader.layout x h) := by
  unfold BlockHeader.Bytes BlockHeader.bytesWithoutPOW BlockHeader.layout BlockHeader.bytesPOW
  simp [henc.previous, henc.previousRoot, henc.utxoRoot, henc.rangeProofRoot, henc.kernelRoot]

theorem BlockHeader.WellFormed.encodable (x : Ext) (h : BlockHeader) (hwf : h.WellFormed x) :
    h.Encodable :=
  ⟨hwf.previous, hwf.previousRoot, hwf.utxoRoot, hwf.rangeProofRoot, hwf.kernelRoot⟩

theorem headerBytes_of_wellFormed (x : Ext) (h : BlockHeader) (hwf : h.WellFormed x) :
    BlockHeader.Bytes x h = some (BlockHeader.layout x h) :=
  headerBytes_of_encodable x h (BlockHeader.WellFormed.encodable x h hwf)

theorem headerRead_layout (x : Ext) (h b0 : BlockHeader) (rest : Stream)
    (hwf : h.WellFormed x) :
    BlockHeader.Read x b0 (BlockHeader.layout x h ++ rest)
      = ⟨none, h.decodedInto b0, rest⟩ := by
  unfold BlockHeader.Read BlockHeader.layout BlockHeader.decodedInto
  simp only [List.append_assoc]
  rw [readUint64_write]
  dsimp only
  rw [readInt64_write _ _ hwf.timestampLow hwf.timestampHigh]
  dsimp only
  rw [ioReadFull_make _ _ _ hwf.previous]
  dsimp only
  rw [ioReadFull_make _ _ _ hwf.previousRoot]
  dsimp only
  rw [ioReadFull_make _ _ _ hwf.utxoRoot]
  dsimp only
  rw [ioReadFull_make _ _ _ hwf.rangeProofRoot]
  dsimp only
  rw [ioReadFull_make _ _ _ hwf.kernelRoot]
  dsimp only
  rw [ioReadFull_make _ _ _ hwf.totalKernelOffset]
  dsimp only
  rw [readUint64_write]
  dsimp only
  rw [readUint64_write]
  dsimp only
  rw [readUint64_write]
  dsimp only
  rw [hwf.pow]
  dsimp only
  rw [Nat.mod_eq_of_lt hwf.height, Nat.mod_eq_of_lt hwf.outputMmrSize,
    Nat.mod_eq_of_lt hwf.kernelMmrSize, Nat.mod_eq_of_lt hwf.nonce]

/-! ## Element round trips -/

theorem inputRead_bytes (x : Ext) (i i0 : Input) (rest : Stream) (hwf : i.WellFormed x) :
    Input.Read x i0 (Input.Bytes i ++ rest) = ⟨none, i, rest⟩ := by
  unfold Input.Read Input.Bytes
  simp only [List.append_assoc]
  rw [readUint8_write]
  dsimp only
  rw [ioReadFull_make _ _ _ hwf.commit]
  dsimp only
  rw [Nat.mod_eq_of_lt hwf.features]

theorem toInt64_of_lt (v : Nat) (h : v < 2 ^ 63) : toInt64 v = (v : Int) := by
  unfold toInt64
  have h1 : v % 2 ^ 64 = v := Nat.mod_eq_of_lt (by omega)
  rw [h1, if_pos h]

theorem withLimitReader_exact {α : Type} (bs rest : Stream) (v : α)
    (decode : Stream → Option Nat × α × Stream) (h : decode bs = (none, v, [])) :
    withLimitReader (bs.length : Int) (bs ++ rest) decode = (none, v, rest) := by
  unfold withLimitReader
  simp [h]

theorem outputRead_bytes (x : Ext) (o o0 : Output) (rest : Stream) (hwf : o.WellFormed x) :
    Output.Read x o0 (Output.Bytes x o ++ rest) = ⟨none, o, rest⟩ := by
  unfold Output.Read Output.Bytes Output.BytesWithoutProof
  simp only [List.append_assoc]
  rw [readUint8_write]
  dsimp only
  rw [hwf.commit]
  dsimp only
  rw [readUint64_write]
  dsimp only
  have hlen : (x.bulletProofBytes o.RangeProof).length % 2 ^ 64
      = (x.bulletProofBytes o.RangeProof).length :=
    Nat.mod_eq_of_lt (by have := hwf.proofSizeInt; omega)
  rw [hlen]
  have hmax : ¬ (x.bulletProofBytes o.RangeProof).length > x.MaxProofSize := by
    have := hwf.proofSize
    omega
  rw [if_neg hmax, toInt64_of_lt _ hwf.proofSizeInt,
    withLimitReader_exact _ _ _ _ hwf.rangeProof]
  dsimp only
  rw [Nat.mod_eq_of_lt hwf.features]

theorem kernelRead_bytes (x : Ext) (k k0 : TxKernel) (rest : Stream)
    (hwf : k.WellFormed x) (hsig0 : k0.ExcessSig.length = 64) :
    TxKernel.Read x k0 (TxKernel.Bytes x k ++ rest) = ⟨none, k, rest⟩ := by
  unfold TxKernel.Read TxKernel.Bytes
  simp only [List.append_assoc]
  rw [readUint8_write]
  dsimp only
  rw [readUint64_write]
  dsimp only
  rw [readUint64_write]
  dsimp only
  rw [hwf.excess]
  dsimp only
  rw [ioReadFull_append _ _ _ (by rw [hsig0, hwf.excessSig])]
  dsimp only
  rw [Nat.mod_eq_of_lt hwf.features, Nat.mod_eq_of_lt hwf.fee, Nat.mod_eq_of_lt hwf.lockHeight]

theorem readAll_writeAll {α : Type} (read : α → Stream → Res α) (zero : α)
    (bytesOf : α → List Nat) (l : List α) (rest : Stream)
    (h : ∀ e ∈ l, ∀ rest, read zero (bytesOf e ++ rest) = ⟨none, e, rest⟩) :
    readAll read zero l.length (writeAll bytesOf l ++ rest) = ⟨none, l, rest⟩ := by
  induction l with
  | nil => rfl
  | cons e t ih =>
    simp only [List.length_cons, readAll, writeAll, List.append_assoc]
    rw [h e (by simp)]
    dsimp only
    rw [ih (fun e2 he2 => h e2 (by simp [he2]))]

/-! ## Sorted permutations -/

theorem bytesCompare_trans (a b c : List Nat) (hab : bytesCompare a b < 0)
    (hbc : bytesCompare b c < 0) : bytesCompare a c < 0 := by
  induction a generalizing b c with
  | nil =>
    cases b with
    | nil => simp [bytesCompare] at hab
    | cons hb tb =>
      cases c with
      | nil => simp [bytesCompare] at hbc
      | cons hc tc => simp [bytesCompare]
  | cons ha ta ih =>
    cases b with
    | nil => simp [bytesCompare] at hab
    | cons hb tb =>
      cases c with
      | nil => simp [bytesCompare] at hbc
      | cons hc tc =>
        simp only [bytesCompare] at hab hbc ⊢
        split_ifs at hab hbc ⊢
        all_goals first
          | omega
          | exact ih tb tc hab hbc

theorem bytesCompare_le_trans (a b c : List Nat) (hab : ¬ bytesCompare b a < 0)
    (hbc : ¬ bytesCompare c b < 0) : ¬ bytesCompare c a < 0 := by
  intro hca
  by_cases hcb : bytesCompare b c < 0
  · exact hab (bytesCompare_trans b c a hcb hca)
  · have h0 : bytesCompare c b = 0 := by
      by_contra hne
      have : 0 < bytesCompare c b := by omega
      exact hcb (bytesCompare_swap_neg c b this)
    have hceq : c = b := bytesCompare_eq_zero c b h0
    rw [hceq] at hca
    exact hab hca

theorem sortIsSorted_pairwise {α : Type} (key : α → List Nat) (less : α → α → Bool)
    (hless : ∀ a b, less a b = decide (bytesCompare (key a) (key b) < 0)) (l : List α)
    (h : sortIsSorted less l = true) : l.Pairwise (fun a b => less b a = false) := by
  induction l with
  | nil => exact List.Pairwise.nil
  | cons a t ih =>
    cases t with
    | nil => simp
    | cons b t2 =>
      simp only [sortIsSorted, Bool.and_eq_true, Bool.not_eq_true'] at h
      have iht := ih h.2
      refine List.Pairwise.cons ?_ iht
      intro c hc
      rcases List.mem_cons.mp hc with hcb | hct
      · rw [hcb]
        exact h.1
      · have hbc : less c b = false := (List.pairwise_cons.mp iht).1 c hct
        have hab := h.1
        rw [hless] at hbc hab ⊢
        simp only [decide_eq_false_iff_not] at hbc hab ⊢
        exact bytesCompare_le_trans _ _ _ hab hbc

theorem strictlyAscending_pairwise {α : Type} (key : α → List Nat) (less : α → α → Bool)
    (hless : ∀ a b, less a b = decide (bytesCompare (key a) (key b) < 0)) (l : List α)
    (h : strictlyAscending less l = true) : l.Pairwise (fun a b => less a b = true) := by
  induction l with
  | nil => exact List.Pairwise.nil
  | cons a t ih =>
    cases t with
    | nil => simp
    | cons b t2 =>
      simp only [strictlyAscending, Bool.and_eq_true] at h
      have iht := ih h.2
      refine List.Pairwise.cons ?_ iht
      intro c hc
      rcases List.mem_cons.mp hc with hcb | hct
      · rw [hcb]
        exact h.1
      · have hbc : less b c = true := (List.pairwise_cons.mp iht).1 c hct
        have hab := h.1
        rw [hless] at hbc hab ⊢
        simp only [decide_eq_true_eq] at hbc hab ⊢
        exact bytesCompare_trans _ _ _ hab hbc

/-- A list in strictly ascending order is the only sorted arrangement of its elements. -/
theorem sorted_perm_unique {α : Type} (key : α → List Nat) (less : α → α → Bool)
    (hless : ∀ a b, less a b = decide (bytesCompare (key a) (key b) < 0)) (l l2 : List α)
    (hperm : l2.Perm l) (hsorted : sortIsSorted less l2 = true)
    (hstrict : strictlyAscending less l = true) : l2 = l := by
  have hp2 := sortIsSorted_pairwise key less hless l2 hsorted
  have hp := strictlyAscending_pairwise key less hless l hstrict
  clear hsorted hstrict
  induction l generalizing l2 with
  | nil => exact hperm.eq_nil
  | cons a t ih =>
    cases l2 with
    | nil => exact absurd hperm.symm.eq_nil (by simp)
    | cons a2 t2 =>
      have hhead : a2 = a := by
        by_contra hne
        have ha2 : a2 ∈ a :: t := hperm.subset (by simp)
        have ha2t : a2 ∈ t := by
          rcases List.mem_cons.mp ha2 with h | h
          · exact absurd h hne
          · exact h
        have ha : a ∈ a2 :: t2 := hperm.symm.subset (by simp)
        have hat2 : a ∈ t2 := by
          rcases List.mem_cons.mp ha with h | h
          · exact absurd h.symm hne
          · exact h
        have h1 : less a a2 = true := (List.pairwise_cons.mp hp).1 a2 ha2t
        have h2 : less a a2 = false := (List.pairwise_cons.mp hp2).1 a hat2
        rw [h1] at h2
        cases h2
      subst hhead
      have htail := ih t2 (List.Perm.cons_inv hperm) (List.pairwise_cons.mp hp2).2
        (List.pairwise_cons.mp hp).2
      rw [htail]

/-! ## The reference sort meets the contract of `sort.Sort` -/

theorem sortIsSorted_iff_chain {α : Type} (less : α → α → Bool) (l : List α) :
    sortIsSorted less l = true ↔ List.Chain' (fun a b => less b a = false) l := by
  induction l with
  | nil => simp [sortIsSorted]
  | cons a t ih =>
    cases t with
    | nil => simp [sortIsSorted]
    | cons b t2 =>
      simp only [sortIsSorted, Bool.and_eq_true, Bool.not_eq_true', List.chain'_cons]
      rw [ih]

theorem insertLeftward_perm {α : Type} (less : α → α → Bool) (e : α) (l : List α) :
    (insertLeftward less e l).Perm (e :: l) := by
  induction l with
  | nil => exact List.Perm.refl _
  | cons p t ih =>
    simp only [insertLeftward]
    split
    · exact (List.Perm.cons p ih).trans (List.Perm.swap e p t)
    · exact List.Perm.refl _

theorem insertLeftward_head {α : Type} (less : α → α → Bool) (e : α) (l : List α) :
    ∀ y ∈ (insertLeftward less e l).head?, y = e ∨ y ∈ l.head? := by
  intro y hy
  cases l with
  | nil =>
    simp [insertLeftward] at hy
    exact Or.inl hy.symm
  | cons p t =>
    simp only [insertLeftward] at hy
    split at hy
    · simp at hy
      exact Or.inr (by simp [hy])
    · simp at hy
      exact Or.inl hy.symm

theorem insertLeftward_chain {α : Type} (less : α → α → Bool)
    (hasym : ∀ a b, less a b = true → less b a = false) (e : α) (l : List α)
    (h : List.Chain' (fun a b => less a b = false) l) :
    List.Chain' (fun a b => less a b = false) (insertLeftward less e l) := by
  induction l with
  | nil => simp [insertLeftward]
  | cons p t ih =>
    simp only [insertLeftward]
    split
    · rename_i hep
      rw [List.chain'_cons'] at h ⊢
      refine ⟨?_, ih h.2⟩
      intro y hy
      rcases insertLeftward_head less e t y hy with hye | hyt
      · rw [hye]
        exact hasym e p hep
      · exact h.1 y hyt
    · rename_i hep
      rw [List.chain'_cons]
      exact ⟨by simpa using hep, h⟩

theorem insertionSort_contract {α : Type} (less : α → α → Bool)
    (hasym : ∀ a b, less a b = true → less b a = false) (l : List α) :
    (insertionSort less l).Perm l ∧ sortIsSorted less (insertionSort less l) = true := by
  have key : ∀ (l acc : List α), List.Chain' (fun a b => less a b = false) acc →
      (l.foldl (fun acc e => insertLeftward less e acc) acc).Perm (l.reverse ++ acc)
      ∧ List.Chain' (fun a b => less a b = false)
          (l.foldl (fun acc e => insertLeftward less e acc) acc) := by
    intro l
    induction l with
    | nil =>
      intro acc hacc
      exact ⟨List.Perm.refl _, hacc⟩
    | cons e t ih =>
      intro acc hacc
      simp only [List.foldl_cons, List.reverse_cons, List.append_assoc, List.singleton_append]
      have hstep := ih (insertLeftward less e acc) (insertLeftward_chain less hasym e acc hacc)
      refine ⟨hstep.1.trans ?_, hstep.2⟩
      exact List.Perm.append_left _ (insertLeftward_perm less e acc)
  have hk := key l [] List.chain'_nil
  unfold insertionSort
  constructor
  · refine (List.reverse_perm _).trans (hk.1.trans ?_)
    simp
  · rw [sortIsSorted_iff_chain, List.chain'_reverse]
    exact hk.2

theorem refExt_sortContract : SortContract refExt := by
  refine ⟨fun l => ?_, fun l => ?_, fun l => ?_⟩
  · apply insertionSort_contract
    intro a b hab
    simp only [InputList.Less, decide_eq_true_eq, decide_eq_false_iff_not] at hab ⊢
    exact bytesCompare_asymm _ _ hab
  · apply insertionSort_contract
    intro a b hab
    simp only [OutputList.Less, decide_eq_true_eq, decide_eq_false_iff_not] at hab ⊢
    exact bytesCompare_asymm _ _ hab
  · apply insertionSort_contract
    intro a b hab
    simp only [TxKernelList.Less, decide_eq_true_eq, decide_eq_false_iff_not] at hab ⊢
    exact bytesCompare_asymm _ _ hab

/-! ## Block round trip -/

theorem blockBytes_of_encodable (x : Ext) (b : Block) (hsort : SortContract x)
    (henc : b.Header.Encodable) :
    Block.Bytes x b = some (Block.layout x (Block.sorted x b), Block.sorted x b) := by
  unfold Block.Bytes
  rw [headerBytes_of_encodable x b.Header henc]
  simp only [Block.layout, Block.sorted, (hsort.1 b.Inputs).1.length_eq,
    (hsort.2.1 b.Outputs).1.length_eq, (hsort.2.2 b.Kernels).1.length_eq, List.append_assoc]

theorem Block.sorted_wellFormed (x : Ext) (b : Block) (hsort : SortContract x)
    (hwf : b.WellFormed x) : (Block.sorted x b).WellFormed x where
  header := hwf.header
  inputs := fun i hi => hwf.inputs i ((hsort.1 b.Inputs).1.mem_iff.mp hi)
  outputs := fun o ho => hwf.outputs o ((hsort.2.1 b.Outputs).1.mem_iff.mp ho)
  kernels := fun k hk => hwf.kernels k ((hsort.2.2 b.Kernels).1.mem_iff.mp hk)
  inputCount := by
    have := (hsort.1 b.Inputs).1.length_eq
    have := hwf.inputCount
    simp only [Block.sorted]
    omega
  outputCount := by
    have := (hsort.2.1 b.Outputs).1.length_eq
    have := hwf.outputCount
    simp only [Block.sorted]
    omega
  kernelCount := by
    have := (hsort.2.2 b.Kernels).1.length_eq
    have := hwf.kernelCount
    simp only [Block.sorted]
    omega

theorem blockRead_layout (x : Ext) (c b0 : Block) (rest : Stream) (hwf : c.WellFormed x) :
    Block.Read x b0 (Block.layout x c ++ rest)
      = ⟨none, ⟨c.Header.decodedInto b0.Header, c.Inputs, c.Outputs, c.Kernels⟩, rest⟩ := by
  have hstream : Block.layout x c ++ rest = BlockHeader.layout x c.Header
      ++ (writeUint64 c.Inputs.length ++ (writeUint64 c.Outputs.length
      ++ (writeUint64 c.Kernels.length ++ (writeAll Input.Bytes c.Inputs
      ++ (writeAll (Output.Bytes x) c.Outputs ++ (writeAll (TxKernel.Bytes x) c.Kernels
      ++ rest)))))) := by
    simp only [Block.layout, List.append_assoc]
  rw [hstream]
  unfold Block.Read
  rw [headerRead_layout x c.Header b0.Header _ hwf.header]
  dsimp only
  rw [readUint64_write]
  dsimp only
  rw [readUint64_write]
  dsimp only
  rw [readUint64_write]
  dsimp only
  have hi := hwf.inputCount
  have ho := hwf.outputCount
  have hk := hwf.kernelCount
  rw [Nat.mod_eq_of_lt (by omega : c.Inputs.length < 2 ^ 64),
    Nat.mod_eq_of_lt (by omega : c.Outputs.length < 2 ^ 64),
    Nat.mod_eq_of_lt (by omega : c.Kernels.length < 2 ^ 64)]
  rw [if_neg (by omega), if_neg (by omega), if_neg (by omega)]
  rw [readAll_writeAll (Input.Read x) Input.zero Input.Bytes c.Inputs _
    (fun e he r => inputRead_bytes x e Input.zero r (hwf.inputs e he))]
  dsimp only
  rw [readAll_writeAll (Output.Read x) Output.zero (Output.Bytes x) c.Outputs _
    (fun e he r => outputRead_bytes x e Output.zero r (hwf.outputs e he))]
  dsimp only
  rw [readAll_writeAll (TxKernel.Read x) TxKernel.zero (TxKernel.Bytes x) c.Kernels _
    (fun e he r => kernelRead_bytes x e TxKernel.zero r (hwf.kernels e he) (by simp [TxKernel.zero]))]

/-! ## The reference data is well formed -/

theorem refExt_pointRead (p p0 : Point) (rest : Stream) (h : p.raw.length = 33) :
    refExt.pointRead p0 (refExt.pointBytes p ++ rest) = (none, p, rest) := by
  show refPointRead p0 (p.raw ++ rest) = (none, p, rest)
  unfold refPointRead
  rw [ioReadFull_make _ _ _ h]

theorem refExt_powRead (p p0 : Proof) (rest : Stream) (hbits : p.EdgeBits < 256)
    (h : p.raw.length = 8) :
    refExt.powRead p0 (refExt.powBytes p ++ rest) = (none, p, rest) := by
  show refPowRead p0 ((writeUint8 p.EdgeBits ++ p.raw) ++ rest) = (none, p, rest)
  unfold refPowRead
  rw [List.append_assoc, readUint8_write]
  dsimp only
  rw [ioReadFull_make _ _ _ h]
  dsimp only
  rw [Nat.mod_eq_of_lt hbits]

theorem BlockHeader.WellFormed.unencoded (x : Ext) (h : BlockHeader) (difficulty : Nat)
    (sum : List Nat) (hwf : h.WellFormed x) :
    ({ h with Difficulty := difficulty, TotalKernelSum := sum } : BlockHeader).WellFormed x :=
  ⟨hwf.height, hwf.timestampLow, hwf.timestampHigh, hwf.previous, hwf.previousRoot,
    hwf.utxoRoot, hwf.rangeProofRoot, hwf.kernelRoot, hwf.totalKernelOffset,
    hwf.outputMmrSize, hwf.kernelMmrSize, hwf.nonce, hwf.pow⟩

theorem refHeader_wellFormed : refHeader.WellFormed refExt where
  height := by decide
  timestampLow := by decide
  timestampHigh := by decide
  previous := by decide
  previousRoot := by decide
  utxoRoot := by decide
  rangeProofRoot := by decide
  kernelRoot := by decide
  totalKernelOffset := by decide
  outputMmrSize := by decide
  kernelMmrSize := by decide
  nonce := by decide
  pow := fun p0 rest => refExt_powRead _ p0 rest (by decide) (by decide)

theorem refInput_wellFormed (tag : Nat) : (refInput tag).WellFormed refExt where
  features := by simp [refInput]
  commit := by simp [refInput, refExt]

theorem refOutput_wellFormed (features tag : Nat) (h : features < 256) :
    (refOutput features tag).WellFormed refExt where
  features := h
  commit := fun rest => refExt_pointRead _ _ rest (by simp [refOutput, refPoint])
  proofSize := by simp [refOutput, refExt]
  proofSizeInt := by simp [refOutput, refExt]
  rangeProof := rfl

theorem refKernel_wellFormed (features fee : Nat) (h : features < 256) (hfee : fee < 2 ^ 64) :
    (refKernel features fee).WellFormed refExt where
  features := h
  fee := hfee
  lockHeight := by simp [refKernel]
  excess := fun p0 rest => refExt_pointRead _ p0 rest (by simp [refKernel, refPoint])
  excessSig := by simp [refKernel, writeUint64, bigEndianPut_length]

theorem refBlock_wellFormed (h : BlockHeader) (hwf : h.WellFormed refExt) :
    ({ refBlock with Header := h } : Block).WellFormed refExt where
  header := hwf
  inputs := by
    intro i hi
    simp only [refBlock, List.mem_cons, List.mem_singleton, List.not_mem_nil, or_false] at hi
    rcases hi with rfl | rfl <;> exact refInput_wellFormed _
  outputs := by
    intro o ho
    simp only [refBlock, List.mem_cons, List.mem_singleton, List.not_mem_nil, or_false] at ho
    rcases ho with rfl | rfl <;> exact refOutput_wellFormed _ _ (by decide)
  kernels := by
    intro k hk
    simp only [refBlock, List.mem_cons, List.mem_singleton, List.not_mem_nil, or_false] at hk
    rcases hk with rfl | rfl <;> exact refKernel_wellFormed _ _ (by decide) (by decide)
  inputCount := by simp [refBlock]
  outputCount := by simp [refBlock]
  kernelCount := by simp [refBlock]

/-- C4 (counterexample). Under the reference collaborators a well-formed header that passes
validation and carries a difficulty and a total kernel sum is not restored by decoding its
encoding into a fresh header: the decoded difficulty and total kernel sum are the zero
values. -/
theorem C4_counterexample_unencoded_header_fields :
    difficultyHeader.WellFormed refExt
    ∧ BlockHeader.Validate refExt difficultyHeader = none
    ∧ ∃ bytes, BlockHeader.Bytes refExt difficultyHeader = some bytes
      ∧ (BlockHeader.Read refExt BlockHeader.zero bytes).err = none
      ∧ (BlockHeader.Read refExt BlockHeader.zero bytes).self ≠ difficultyHeader
      ∧ (BlockHeader.Read refExt BlockHeader.zero bytes).self.Difficulty = 0
      ∧ difficultyHeader.Difficulty = 5
      ∧ (BlockHeader.Read refExt BlockHeader.zero bytes).self.TotalKernelSum = []
      ∧ difficultyHeader.TotalKernelSum = [1, 2, 3] :=
  ⟨BlockHeader.WellFormed.unencoded refExt refHeader 5 [1, 2, 3] refHeader_wellFormed,
    by decide, BlockHeader.layout refExt difficultyHeader, by decide, by decide, by decide,
    by decide, by decide, by decide, by decide⟩

/-- C4 (amended). For every well-formed header `h` (64-bit integers, hash fields of the fixed
lengths, a proof of work that its codec reads back), `BlockHeader.Read` applied to
`BlockHeader.Bytes(h)` succeeds, consumes exactly those bytes and yields a header equal to
`h` on every encoded field: height, previous hash, previous root, the three Merkle roots,
nonce, total kernel offset, output and kernel MMR sizes and proof of work, with the timestamp
as whole Unix seconds in UTC. The total kernel sum and the difficulty are not encoded and
stay as they are in the receiving header, so the decoded header equals `h` field for field
exactly when the timestamp of `h` is whole seconds in UTC and its total kernel sum and
difficulty are those of the receiver. -/
theorem C4_header_round_trip (x : Ext) (h b0 : BlockHeader) (rest : Stream)
    (hwf : h.WellFormed x) :
    ∃ bytes decoded, BlockHeader.Bytes x h = some bytes
      ∧ BlockHeader.Read x b0 (bytes ++ rest) = ⟨none, decoded, rest⟩
      ∧ decoded.Height = h.Height ∧ decoded.Previous = h.Previous
      ∧ decoded.PreviousRoot = h.PreviousRoot ∧ decoded.UTXORoot = h.UTXORoot
      ∧ decoded.RangeProofRoot = h.RangeProofRoot ∧ decoded.KernelRoot = h.KernelRoot
      ∧ decoded.Nonce = h.Nonce ∧ decoded.TotalKernelOffset = h.TotalKernelOffset
      ∧ decoded.OutputMmrSize = h.OutputMmrSize ∧ decoded.KernelMmrSize = h.KernelMmrSize
      ∧ decoded.POW = h.POW
      ∧ decoded.Timestamp = Time.unixUTC h.Timestamp.Unix
      ∧ decoded.TotalKernelSum = b0.TotalKernelSum ∧ decoded.Difficulty = b0.Difficulty
      ∧ (decoded = h ↔ h.Timestamp = Time.unixUTC h.Timestamp.Unix
          ∧ h.TotalKernelSum = b0.TotalKernelSum ∧ h.Difficulty = b0.Difficulty) := by
  refine ⟨BlockHeader.layout x h, h.decodedInto b0, headerBytes_of_wellFormed x h hwf,
    headerRead_layout x h b0 rest hwf, rfl, rfl, rfl, rfl, rfl, rfl, rfl, rfl, rfl, rfl,
    rfl, rfl, rfl, rfl, ?_⟩
  constructor
  · intro heq
    have h1 := congrArg BlockHeader.Timestamp heq
    have h2 := congrArg BlockHeader.TotalKernelSum heq
    have h3 := congrArg BlockHeader.Difficulty heq
    exact ⟨h1.symm, h2.symm, h3.symm⟩
  · rintro ⟨h1, h2, h3⟩
    cases h
    simp only [BlockHeader.decodedInto] at h1 h2 h3 ⊢
    rw [← h1, ← h2, ← h3]

/-- C4 (witness). The reference header, whose timestamp is whole seconds in UTC and whose
total kernel sum and difficulty are zero values, is read back from its encoding into a fresh
header. -/
theorem C4_witness_reference_header :
    ∃ bytes, BlockHeader.Bytes refExt refHeader = some bytes
      ∧ BlockHeader.Read refExt BlockHeader.zero (bytes ++ []) = ⟨none, refHeader, []⟩ := by
  obtain ⟨bytes, decoded, hbytes, hread, -, -, -, -, -, -, -, -, -, -, -, -, -, -, hiff⟩ :=
    C4_header_round_trip refExt refHeader BlockHeader.zero [] refHeader_wellFormed
  have hdec : decoded = refHeader := hiff.mpr (by decide)
  rw [hdec] at hread
  exact ⟨bytes, hbytes, hread⟩

/-- C3 (counterexample). Under the reference collaborators a well-formed block that passes
`Block.Validate`, with its lists in strictly ascending hash order, is not restored by decoding
its encoding into a fresh block: the header comes back without its difficulty and total
kernel sum. -/
theorem C3_counterexample_header_not_restored :
    difficultyBlock.WellFormed refExt
    ∧ Block.Validate refExt difficultyBlock = none
    ∧ ∃ bytes b1, Block.Bytes refExt difficultyBlock = some (bytes, b1)
      ∧ b1 = difficultyBlock
      ∧ (Block.Read refExt Block.zero bytes).err = none
      ∧ (Block.Read refExt Block.zero bytes).self ≠ difficultyBlock
      ∧ (Block.Read refExt Block.zero bytes).self.Header ≠ difficultyBlock.Header
      ∧ (Block.Read refExt Block.zero bytes).self.Header.Difficulty = 0
      ∧ difficultyBlock.Header.Difficulty = 5 :=
  ⟨refBlock_wellFormed difficultyHeader
      (BlockHeader.WellFormed.unencoded refExt refHeader 5 [1, 2, 3] refHeader_wellFormed),
    by decide, Block.layout refExt difficultyBlock, difficultyBlock, by decide, rfl, by decide,
    by decide, by decide, by decide, by decide⟩

/-- C3 (amended). For every well-formed block `x` (a well-formed header, elements that the
wire format can carry, at most 1,000,000 elements per list), `Block.Read` applied to
`Block.Bytes(x)` succeeds, consumes exactly those bytes and yields the Inputs, Outputs and
Kernels lists that the encoder leaves in `x`, element by element, range proofs included:
each is a permutation of the original list, and is the original list itself when that list
is in strictly ascending hash order. The decoded header equals the header of `x` on the
encoded fields, with the timestamp as whole Unix seconds in UTC; the total kernel sum and the
difficulty are not encoded and stay as they are in the receiving block. -/
theorem C3_block_round_trip (x : Ext) (b b0 : Block) (rest : Stream)
    (hsort : SortContract x) (hwf : b.WellFormed x) :
    ∃ bytes b1, Block.Bytes x b = some (bytes, b1)
      ∧ Block.Read x b0 (bytes ++ rest)
          = ⟨none, ⟨b.Header.decodedInto b0.Header, b1.Inputs, b1.Outputs, b1.Kernels⟩, rest⟩
      ∧ b1.Header = b.Header
      ∧ b1.Inputs.Perm b.Inputs ∧ b1.Outputs.Perm b.Outputs ∧ b1.Kernels.Perm b.Kernels
      ∧ (strictlyAscending (InputList.Less x) b.Inputs = true → b1.Inputs = b.Inputs)
      ∧ (strictlyAscending (OutputList.Less x) b.Outputs = true → b1.Outputs = b.Outputs)
      ∧ (strictlyAscending (TxKernelList.Less x) b.Kernels = true → b1.Kernels = b.Kernels)
      ∧ (b.Header.decodedInto b0.Header = b.Header ↔
          b.Header.Timestamp = Time.unixUTC b.Header.Timestamp.Unix
          ∧ b.Header.TotalKernelSum = b0.Header.TotalKernelSum
          ∧ b.Header.Difficulty = b0.Header.Difficulty) := by
  refine ⟨Block.layout x (Block.sorted x b), Block.sorted x b,
    blockBytes_of_encodable x b hsort (BlockHeader.WellFormed.encodable x _ hwf.header),
    blockRead_layout x (Block.sorted x b) b0 rest (Block.sorted_wellFormed x b hsort hwf),
    rfl, (hsort.1 b.Inputs).1, (hsort.2.1 b.Outputs).1, (hsort.2.2 b.Kernels).1,
    ?_, ?_, ?_, ?_⟩
  · intro hasc
    exact sorted_perm_unique (Input.Hash x) (InputList.Less x) (fun _ _ => rfl) _ _
      (hsort.1 b.Inputs).1 (hsort.1 b.Inputs).2 hasc
  · intro hasc
    exact sorted_perm_unique (Output.Hash x) (OutputList.Less x) (fun _ _ => rfl) _ _
      (hsort.2.1 b.Outputs).1 (hsort.2.1 b.Outputs).2 hasc
  · intro hasc
    exact sorted_perm_unique (TxKernel.Hash x) (TxKernelList.Less x) (fun _ _ => rfl) _ _
      (hsort.2.2 b.Kernels).1 (hsort.2.2 b.Kernels).2 hasc
  · constructor
    · intro heq
      exact ⟨(congrArg BlockHeader.Timestamp heq).symm,
        (congrArg BlockHeader.TotalKernelSum heq).symm,
        (congrArg BlockHeader.Difficulty heq).symm⟩
    · rintro ⟨h1, h2, h3⟩
      cases hh : b.Header
      rw [hh] at h1 h2 h3
      simp only [BlockHeader.decodedInto] at h1 h2 h3 ⊢
      rw [← h1, ← h2, ← h3]

/-- C3 (witness). The reference block, whose lists are in strictly ascending hash order and
whose header has a whole-second UTC timestamp and zero total kernel sum and difficulty, is
read back from its encoding into a fresh block. -/
theorem C3_witness_reference_block :
    ∃ bytes, (Block.Bytes refExt refBlock).map Prod.fst = some bytes
      ∧ Block.Read refExt Block.zero (bytes ++ []) = ⟨none, refBlock, []⟩ := by
  obtain ⟨bytes, b1, hbytes, hread, -, -, -, -, hi, ho, hk, hh⟩ :=
    C3_block_round_trip refExt refBlock Block.zero [] refExt_sortContract
      (refBlock_wellFormed refHeader refHeader_wellFormed)
  rw [hi (by decide), ho (by decide), hk (by decide), hh.mpr (by decide)] at hread
  exact ⟨bytes, by rw [hbytes]; rfl, hread⟩

theorem verifyRangeProofsLoop_none (x : Ext) (l : List Output) :
    Block.verifyRangeProofsLoop x l = none ↔
      ∀ o ∈ l, x.proverVerify o.Commit o.RangeProof = true := by
  induction l with
  | nil => simp [Block.verifyRangeProofsLoop]
  | cons o t ih =>
    unfold Block.verifyRangeProofsLoop
    cases hv : x.proverVerify o.Commit o.RangeProof with
    | false => simp [hv]
    | true => simp [hv, ih]

theorem verifyRangeProofsLoop_first (x : Ext) (pre post : List Output) (o : Output)
    (hpre : ∀ p ∈ pre, x.proverVerify p.Commit p.RangeProof = true)
    (ho : x.proverVerify o.Commit o.RangeProof = false) :
    Block.verifyRangeProofsLoop x (pre ++ o :: post)
      = some (Err.proofVerificationFailed o.Commit o.RangeProof) := by
  induction pre with
  | nil => simp [Block.verifyRangeProofsLoop, ho]
  | cons p t ih =>
    have hp : x.proverVerify p.Commit p.RangeProof = true := hpre p (by simp)
    simp only [List.cons_append, Block.verifyRangeProofsLoop, hp, Bool.not_true,
      Bool.false_eq_true, if_false]
    exact ih (fun q hq => hpre q (by simp [hq]))

theorem verifyRangeProofsLoop_some (x : Ext) (l : List Output) (e : Err)
    (h : Block.verifyRangeProofsLoop x l = some e) :
    ∃ pre o post, l = pre ++ o :: post
      ∧ (∀ p ∈ pre, x.proverVerify p.Commit p.RangeProof = true)
      ∧ x.proverVerify o.Commit o.RangeProof = false
      ∧ e = Err.proofVerificationFailed o.Commit o.RangeProof := by
  induction l with
  | nil => simp [Block.verifyRangeProofsLoop] at h
  | cons o t ih =>
    unfold Block.verifyRangeProofsLoop at h
    cases hv : x.proverVerify o.Commit o.RangeProof with
    | false =>
      simp only [hv, Bool.not_false, if_true, Option.some.injEq] at h
      exact ⟨[], o, t, rfl, by simp, hv, h.symm⟩
    | true =>
      simp only [hv, Bool.not_true, Bool.false_eq_true, if_false] at h
      obtain ⟨pre, o2, post, hl, hpre, ho2, he⟩ := ih h
      refine ⟨o :: pre, o2, post, by rw [hl]; rfl, ?_, ho2, he⟩
      intro p hp
      rcases List.mem_cons.mp hp with rfl | hp2
      · exact hv
      · exact hpre p hp2

/-- C11. `Block.verifyRangeProofs` returns nil if and only if the external verifier accepts
`(Commit, RangeProof)` for every output of the block; when an output is rejected after
outputs that are all accepted, the error returned names the commitment (and the proof) of
that output, the first rejected one in list order; and every error it returns is of that
kind. -/
theorem C11_range_proofs_checked_for_every_output (x : Ext) (b : Block) :
    (Block.verifyRangeProofs x b = none ↔
      ∀ o ∈ b.Outputs, x.proverVerify o.Commit o.RangeProof = true)
    ∧ (∀ (pre post : List Output) (o : Output), b.Outputs = pre ++ o :: post →
        (∀ p ∈ pre, x.proverVerify p.Commit p.RangeProof = true) →
        x.proverVerify o.Commit o.RangeProof = false →
        Block.verifyRangeProofs x b
          = some (Err.proofVerificationFailed o.Commit o.RangeProof))
    ∧ (∀ e, Block.verifyRangeProofs x b = some e →
        ∃ pre o post, b.Outputs = pre ++ o :: post
          ∧ (∀ p ∈ pre, x.proverVerify p.Commit p.RangeProof = true)
          ∧ x.proverVerify o.Commit o.RangeProof = false
          ∧ e = Err.proofVerificationFailed o.Commit o.RangeProof) := by
  refine ⟨verifyRangeProofsLoop_none x b.Outputs, ?_, ?_⟩
  · intro pre post o hshape hpre ho
    unfold Block.verifyRangeProofs
    rw [hshape]
    exact verifyRangeProofsLoop_first x pre post o hpre ho
  · intro e he
    exact verifyRangeProofsLoop_some x b.Outputs e he

/-- C11 (witness). In the reference block with the proof of its second output replaced by
one that the reference verifier rejects, range-proof verification returns the error naming
the commitment of that output. -/
theorem C11_witness_second_output_rejected :
    Block.verifyRangeProofs refExt badProofBlock
      = some (Err.proofVerificationFailed (refPoint 3) ⟨[9]⟩) :=
  (C11_range_proofs_checked_for_every_output refExt badProofBlock).2.1
    [refOutput 0 4] [] ⟨1, refPoint 3, ⟨[9]⟩⟩ rfl (by decide) (by decide)

/-! ## Claims on hashes and on kernel validation -/

/-- C13. `BlockHeader.Hash` is the digest of the proof bytes of the proof-of-work object and
of nothing else, and `Block.Hash` is the hash of the header: two headers with equal proof of
work have equal hashes whatever their other fields, and two blocks whose headers have equal
proof of work have equal hashes whatever the rest of the headers and the bodies. -/
theorem C13_hash_is_digest_of_proof_of_work (x : Ext) :
    (∀ h : BlockHeader, BlockHeader.Hash x h = x.blake2bSum256 (x.powProofBytes h.POW))
    ∧ (∀ b : Block, Block.Hash x b = BlockHeader.Hash x b.Header)
    ∧ (∀ h1 h2 : BlockHeader, h1.POW = h2.POW → BlockHeader.Hash x h1 = BlockHeader.Hash x h2)
    ∧ (∀ b1 b2 : Block, b1.Header.POW = b2.Header.POW → Block.Hash x b1 = Block.Hash x b2) := by
  refine ⟨fun _ => rfl, fun _ => rfl, ?_, ?_⟩
  · intro h1 h2 hpow
    unfold BlockHeader.Hash
    rw [hpow]
  · intro b1 b2 hpow
    unfold Block.Hash BlockHeader.Hash
    rw [hpow]

/-- C13 (witness). The reference header and the header that differs from it in difficulty
and total kernel sum have the same hash, and so have a block and the block with another
header of the same proof of work and no outputs. -/
theorem C13_witness_same_proof_of_work :
    refHeader ≠ difficultyHeader
    ∧ BlockHeader.Hash refExt refHeader = BlockHeader.Hash refExt difficultyHeader
    ∧ Block.Hash refExt refBlock = Block.Hash refExt { difficultyBlock with Outputs := [] } :=
  ⟨by decide, (C13_hash_is_digest_of_proof_of_work refExt).2.2.1 refHeader difficultyHeader rfl,
    (C13_hash_is_digest_of_proof_of_work refExt).2.2.2 refBlock
      { difficultyBlock with Outputs := [] } rfl⟩

theorem sortIsSorted_map_congr {α : Type} (less : α → α → Bool) (f : α → α)
    (hf : ∀ a b, less (f a) (f b) = less a b) (l : List α) :
    sortIsSorted less (l.map f) = sortIsSorted less l := by
  induction l with
  | nil => rfl
  | cons a t ih =>
    cases t with
    | nil => rfl
    | cons b t2 =>
      simp only [List.map_cons, sortIsSorted, hf] at ih ⊢
      rw [ih]

/-- C17. `Output.Hash` is the digest of the features byte and the commitment bytes only: two
outputs with equal `Features` and equal `Commit` have equal hashes whatever their range
proofs, so replacing the proof of an output changes neither its hash nor how it compares
under `OutputList.Less` with any output, and replacing the proofs of the outputs of a list
does not change whether `sort.IsSorted` holds of it. -/
theorem C17_output_hash_excludes_range_proof (x : Ext) :
    (∀ o : Output, Output.Hash x o
        = x.sha256Sum256 (writeUint8 o.Features ++ x.pointBytes o.Commit))
    ∧ (∀ o1 o2 : Output, o1.Features = o2.Features → o1.Commit = o2.Commit →
        Output.Hash x o1 = Output.Hash x o2
        ∧ ∀ o3 : Output, OutputList.Less x o1 o3 = OutputList.Less x o2 o3
            ∧ OutputList.Less x o3 o1 = OutputList.Less x o3 o2)
    ∧ (∀ (o : Output) (proof : BulletProof),
        Output.Hash x { o with RangeProof := proof } = Output.Hash x o)
    ∧ (∀ (l : List Output) (reprove : Output → BulletProof),
        sortIsSorted (OutputList.Less x) (l.map (fun o => { o with RangeProof := reprove o }))
          = sortIsSorted (OutputList.Less x) l) := by
  have hhash : ∀ o1 o2 : Output, o1.Features = o2.Features → o1.Commit = o2.Commit →
      Output.Hash x o1 = Output.Hash x o2 := by
    intro o1 o2 hf hc
    unfold Output.Hash Output.BytesWithoutProof
    rw [hf, hc]
  refine ⟨fun _ => rfl, ?_, fun _ _ => rfl, ?_⟩
  · intro o1 o2 hf hc
    refine ⟨hhash o1 o2 hf hc, ?_⟩
    intro o3
    unfold OutputList.Less
    rw [hhash o1 o2 hf hc]
    exact ⟨rfl, rfl⟩
  · intro l reprove
    exact sortIsSorted_map_congr (OutputList.Less x)
      (fun o => { o with RangeProof := reprove o }) (fun _ _ => rfl) l

/-- C17 (witness). The reference output and the same output with another range proof are
different outputs with the same hash. -/
theorem C17_witness_reproved_output :
    refOutput 0 4 ≠ reprovedOutput
    ∧ Output.Hash refExt (refOutput 0 4) = Output.Hash refExt reprovedOutput :=
  ⟨by decide,
    ((C17_output_hash_excludes_range_proof refExt).2.1 (refOutput 0 4) reprovedOutput
      rfl rfl).1⟩

/-- C18. `TxKernel.Validate` returns nil if and only if the external verifier accepts the
decoded `ExcessSig` against `Excess`, used as the public key, for the message computed from
`(Fee, LockHeight)`; in every other case it returns `ErrInvalidSignature`; and its result
does not depend on `Features`. -/
theorem C18_kernel_validate_is_signature_check (x : Ext) (k : TxKernel) :
    (TxKernel.Validate x k = none ↔
      x.VerifySignature k.Excess (x.ComputeMessage k.Fee k.LockHeight)
        (x.DecodeSignature k.ExcessSig) = true)
    ∧ (TxKernel.Validate x k = some Err.ErrInvalidSignature ↔
      x.VerifySignature k.Excess (x.ComputeMessage k.Fee k.LockHeight)
        (x.DecodeSignature k.ExcessSig) = false)
    ∧ (∀ features : Nat,
        TxKernel.Validate x { k with Features := features } = TxKernel.Validate x k) := by
  refine ⟨?_, ?_, fun _ => rfl⟩
  · rw [TxKernel.Validate_eq]
    cases x.VerifySignature k.Excess (x.ComputeMessage k.Fee k.LockHeight)
      (x.DecodeSignature k.ExcessSig) <;> simp
  · rw [TxKernel.Validate_eq]
    cases x.VerifySignature k.Excess (x.ComputeMessage k.Fee k.LockHeight)
      (x.DecodeSignature k.ExcessSig) <;> simp

/-- C18 (witness). Changing the features of the reference kernel does not change the result
of its validation. -/
theorem C18_witness_reflagged_kernel :
    TxKernel.Validate refExt reflaggedKernel = TxKernel.Validate refExt (refKernel 0 5) :=
  (C18_kernel_validate_is_signature_check refExt (refKernel 0 5)).2.2 1

/-! ## Claims on the header encoder and on header validation -/

/-- The header encoder takes the fatal exit exactly when one of the five checked hash fields
has not the length `BlockHashSize`; the length of the kernel offset plays no part. -/
theorem headerBytes_none_iff (x : Ext) (h : BlockHeader) :
    BlockHeader.Bytes x h = none ↔
      (h.Previous.length ≠ BlockHashSize ∨ h.PreviousRoot.length ≠ BlockHashSize
        ∨ h.UTXORoot.length ≠ BlockHashSize ∨ h.RangeProofRoot.length ≠ BlockHashSize
        ∨ h.KernelRoot.length ≠ BlockHashSize) := by
  constructor
  · intro hnone
    by_contra hall
    simp only [not_or, ne_eq, not_not] at hall
    have henc : h.Encodable := ⟨hall.1, hall.2.1, hall.2.2.1, hall.2.2.2.1, hall.2.2.2.2⟩
    rw [headerBytes_of_encodable x h henc] at hnone
    cases hnone
  · intro hbad
    unfold BlockHeader.Bytes BlockHeader.bytesWithoutPOW
    by_cases h1 : h.Previous.length ≠ BlockHashSize
    · rw [if_pos h1]
    · by_cases h2 : h.PreviousRoot.length ≠ BlockHashSize
      · rw [if_neg h1, if_pos h2]
      · have h3 : h.UTXORoot.length ≠ BlockHashSize ∨ h.RangeProofRoot.length ≠ BlockHashSize
            ∨ h.KernelRoot.length ≠ BlockHashSize := by
          rcases hbad with hb | hb | hb
          · exact absurd hb h1
          · exact absurd hb h2
          · exact hb
        rw [if_neg h1, if_neg h2, if_pos h3]

/-- C12 (the code at the failing input). Under the reference collaborators the header whose
total kernel offset has three bytes instead of the fixed hash length of 32 is encoded without
the fatal exit: `BlockHeader.Bytes` returns 212 bytes, the three offset bytes among them,
which `BlockHeader.Read` cannot read back (it takes 32 bytes for the offset and runs out of
stream); the five checked hash fields, by contrast, make the encoder exit when one of them is
short. -/
theorem C12_short_kernel_offset_is_written :
    shortOffsetHeader.TotalKernelOffset.length = 3
    ∧ BlockHashSize = 32
    ∧ BlockHeader.Bytes refExt shortOffsetHeader
        = some (BlockHeader.layout refExt shortOffsetHeader)
    ∧ (BlockHeader.layout refExt shortOffsetHeader).length = 212
    ∧ ((BlockHeader.layout refExt shortOffsetHeader).drop 176).take 3 = [6, 6, 6]
    ∧ (BlockHeader.Read refExt BlockHeader.zero
        (BlockHeader.layout refExt shortOffsetHeader)).err = some Err.ErrUnexpectedEOF
    ∧ BlockHeader.Bytes refExt { refHeader with KernelRoot := [6, 6, 6] } = none := by
  decide

/-- C20 (counterexample). The reference header has its five hash fields of the fixed length
and a kernel offset of 32 bytes, and the part of its encoding before the proof of work has
232 bytes, not 192 + 32. -/
theorem C20_counterexample_length_before_proof_of_work :
    refHeader.Encodable
    ∧ refHeader.TotalKernelOffset.length = 32
    ∧ refHeader.bytesWithoutPOW.map List.length = some 232
    ∧ refHeader.bytesWithoutPOW.map List.length ≠ some (192 + refHeader.TotalKernelOffset.length) :=
  ⟨⟨by decide, by decide, by decide, by decide, by decide⟩, by decide, by decide, by decide⟩

theorem writeUint64_length (v : Nat) : (writeUint64 v).length = 8 := by
  simp [writeUint64, bigEndianPut_length]

theorem writeInt64_length (v : Int) : (writeInt64 v).length = 8 := by
  simp [writeInt64, bigEndianPut_length]

/-- C20 (amended). For every header whose five checked hash fields have the fixed length,
`BlockHeader.Bytes` is the concatenation, in this order, of height (8 bytes big-endian),
timestamp as signed 64-bit Unix seconds (8 bytes big-endian), previous hash, previous-root
hash, UTXO root, range-proof root, kernel root (32 bytes each), total kernel offset, output
MMR size, kernel MMR size and nonce (8 bytes big-endian each), followed last by the
proof-of-work bytes; the part before the proof of work has length 200 plus the length of the
kernel offset. -/
theorem C20_header_layout (x : Ext) (h : BlockHeader) (henc : h.Encodable) :
    BlockHeader.Bytes x h = some (writeUint64 h.Height ++ writeInt64 h.Timestamp.Unix
      ++ h.Previous ++ h.PreviousRoot ++ h.UTXORoot ++ h.RangeProofRoot ++ h.KernelRoot
      ++ h.TotalKernelOffset ++ writeUint64 h.OutputMmrSize ++ writeUint64 h.KernelMmrSize
      ++ writeUint64 h.Nonce ++ x.powBytes h.POW)
    ∧ (∃ before, h.bytesWithoutPOW = some before
        ∧ BlockHeader.Bytes x h = some (before ++ x.powBytes h.POW)
        ∧ before.length = 200 + h.TotalKernelOffset.length)
    ∧ (writeUint64 h.Height).length = 8
    ∧ bigEndianGet (writeUint64 h.Height) = h.Height % 2 ^ 64
    ∧ (writeInt64 h.Timestamp.Unix).length = 8
    ∧ ((bigEndianGet (writeInt64 h.Timestamp.Unix) : Int) = h.Timestamp.Unix % 2 ^ 64)
    ∧ h.Previous.length = 32 ∧ h.PreviousRoot.length = 32 ∧ h.UTXORoot.length = 32
    ∧ h.RangeProofRoot.length = 32 ∧ h.KernelRoot.length = 32
    ∧ (writeUint64 h.OutputMmrSize).length = 8
    ∧ bigEndianGet (writeUint64 h.OutputMmrSize) = h.OutputMmrSize % 2 ^ 64
    ∧ (writeUint64 h.KernelMmrSize).length = 8
    ∧ bigEndianGet (writeUint64 h.KernelMmrSize) = h.KernelMmrSize % 2 ^ 64
    ∧ (writeUint64 h.Nonce).length = 8
    ∧ bigEndianGet (writeUint64 h.Nonce) = h.Nonce % 2 ^ 64 := by
  have hget : ∀ v : Nat, bigEndianGet (writeUint64 v) = v % 2 ^ 64 := fun v =>
    bigEndianGet_put8 _ (Nat.mod_lt _ (by norm_num))
  have hbefore : h.bytesWithoutPOW = some (writeUint64 h.Height
      ++ writeInt64 h.Timestamp.Unix ++ h.Previous ++ h.PreviousRoot ++ h.UTXORoot
      ++ h.RangeProofRoot ++ h.KernelRoot ++ h.TotalKernelOffset
      ++ writeUint64 h.OutputMmrSize ++ writeUint64 h.KernelMmrSize
      ++ writeUint64 h.Nonce) := by
    unfold BlockHeader.bytesWithoutPOW
    simp [henc.previous, henc.previousRoot, henc.utxoRoot, henc.rangeProofRoot,
      henc.kernelRoot]
  have hbytes : BlockHeader.Bytes x h = some (writeUint64 h.Height
      ++ writeInt64 h.Timestamp.Unix ++ h.Previous ++ h.PreviousRoot ++ h.UTXORoot
      ++ h.RangeProofRoot ++ h.KernelRoot ++ h.TotalKernelOffset
      ++ writeUint64 h.OutputMmrSize ++ writeUint64 h.KernelMmrSize
      ++ writeUint64 h.Nonce ++ x.powBytes h.POW) := by
    unfold BlockHeader.Bytes BlockHeader.bytesPOW
    rw [hbefore]
  refine ⟨hbytes, ⟨_, hbefore, hbytes, ?_⟩, writeUint64_length _, hget _,
    writeInt64_length _, ?_, henc.previous, henc.previousRoot, henc.utxoRoot,
    henc.rangeProofRoot, henc.kernelRoot, writeUint64_length _, hget _,
    writeUint64_length _, hget _, writeUint64_length _, hget _⟩
  · simp only [List.length_append, writeUint64_length, writeInt64_length, henc.previous,
      henc.previousRoot, henc.utxoRoot, henc.rangeProofRoot, henc.kernelRoot, BlockHashSize]
    omega
  · unfold writeInt64
    rw [bigEndianGet_put8 _ (by omega)]
    omega

/-- C20 (witness). The encoding of the reference header is its layout, and the part before
the proof of work has 200 + 32 bytes. -/
theorem C20_witness_reference_header :
    ∃ before, refHeader.bytesWithoutPOW = some before
      ∧ BlockHeader.Bytes refExt refHeader = some (before ++ refExt.powBytes refHeader.POW)
      ∧ before.length = 200 + refHeader.TotalKernelOffset.length :=
  (C20_header_layout refExt refHeader
    (BlockHeader.WellFormed.encodable refExt refHeader refHeader_wellFormed)).2.1

theorem Time.Sub_gt_iff (t u : Time) (limit : Int) (h0 : 0 ≤ limit) (hmax : limit < maxDuration) :
    Time.Sub t u > limit ↔
      (t.sec - u.sec) * 1000000000 + ((t.nsec : Int) - (u.nsec : Int)) > limit := by
  unfold Time.Sub
  simp only [maxDuration, minDuration] at hmax ⊢
  split
  · constructor <;> intro _ <;> omega
  · split
    · constructor <;> intro _ <;> omega
    · exact Iff.rfl

/-- C14. For every header and every validation time `now`, provided the constant
`time.Second*12*BlockTimeSec` fits a `time.Duration` (as a constant expression must),
`BlockHeader.Validate` rejects with the invalid-block-time error if and only if the timestamp
minus `now`, taken exactly in nanoseconds, is strictly greater than 12 block intervals of
`BlockTimeSec` seconds, whatever the edge bits and the proof of work are; a timestamp exactly
12 intervals ahead, or in the past, is not rejected by this rule. -/
theorem C14_future_timestamp_rule (x : Ext) (now : Time) (h : BlockHeader)
    (hconst : 1000000000 * 12 * (x.BlockTimeSec : Int) ≤ maxDuration) :
    (BlockHeader.Validate { x with timeNow := now } h = some (Err.invalidBlockTime h.Timestamp)
      ↔ (h.Timestamp.sec - now.sec) * 1000000000 + ((h.Timestamp.nsec : Int) - (now.nsec : Int))
          > 12 * (x.BlockTimeSec : Int) * 1000000000)
    ∧ (∀ t, BlockHeader.Validate { x with timeNow := now } h = some (Err.invalidBlockTime t) →
        (h.Timestamp.sec - now.sec) * 1000000000
            + ((h.Timestamp.nsec : Int) - (now.nsec : Int))
          > 12 * (x.BlockTimeSec : Int) * 1000000000)
    ∧ ((h.Timestamp.sec - now.sec) * 1000000000 + ((h.Timestamp.nsec : Int) - (now.nsec : Int))
          = 12 * (x.BlockTimeSec : Int) * 1000000000 →
        ∀ t, BlockHeader.Validate { x with timeNow := now } h ≠ some (Err.invalidBlockTime t))
    ∧ ((h.Timestamp.sec - now.sec) * 1000000000 + ((h.Timestamp.nsec : Int) - (now.nsec : Int))
          ≤ 0 →
        ∀ t, BlockHeader.Validate { x with timeNow := now } h ≠ some (Err.invalidBlockTime t)) := by
  have hlimit : (0 : Int) ≤ 1000000000 * 12 * (x.BlockTimeSec : Int) := by omega
  have hstrict : 1000000000 * 12 * (x.BlockTimeSec : Int) < maxDuration := by
    simp only [maxDuration] at hconst ⊢
    omega
  have hsub := Time.Sub_gt_iff h.Timestamp now _ hlimit hstrict
  have hrule : ∀ t, BlockHeader.Validate { x with timeNow := now } h
      = some (Err.invalidBlockTime t) →
      (h.Timestamp.sec - now.sec) * 1000000000 + ((h.Timestamp.nsec : Int) - (now.nsec : Int))
        > 12 * (x.BlockTimeSec : Int) * 1000000000 := by
    intro t ht
    by_contra hnot
    have hnot2 : ¬ Time.Sub h.Timestamp now > 1000000000 * 12 * (x.BlockTimeSec : Int) := by
      rw [hsub]
      omega
    unfold BlockHeader.Validate at ht
    simp only [if_neg hnot2] at ht
    split at ht
    · cases ht
    · split at ht
      · cases ht
      · cases ht
  refine ⟨⟨hrule h.Timestamp, ?_⟩, hrule, ?_, ?_⟩
  · intro hgt
    have hgt2 : Time.Sub h.Timestamp now > 1000000000 * 12 * (x.BlockTimeSec : Int) := by
      rw [hsub]
      omega
    unfold BlockHeader.Validate
    simp only [if_pos hgt2]
  · intro heq t ht
    have := hrule t ht
    omega
  · intro hpast t ht
    have := hrule t ht
    omega

/-- C14 (witness). Under the reference collaborators, whose block interval is 60 seconds, a
header stamped 720 seconds and one nanosecond after the clock is rejected with the
invalid-block-time error. -/
theorem C14_witness_one_nanosecond_late :
    BlockHeader.Validate { refExt with timeNow := ⟨1700000000, 0, 0⟩ } (aheadHeader 1)
      = some (Err.invalidBlockTime ⟨1700000720, 1, 0⟩) :=
  (C14_future_timestamp_rule refExt ⟨1700000000, 0, 0⟩ (aheadHeader 1) (by decide)).1.mpr
    (by decide)

/-- C15. For every header that passes the timestamp rule, `BlockHeader.Validate` rejects with
the size-too-small error if and only if the proof is primary (`POW.EdgeBits` differs from
`SecondPowEdgeBits`) and `POW.EdgeBits` is below `DefaultMinEdgeBits`; a proof of the
secondary width is never rejected for size; and in every other case the result is exactly the
result of the external `POW.Validate` called with the header and `POW.EdgeBits`. -/
theorem C15_edge_bits_rule (x : Ext) (h : BlockHeader)
    (htime : ¬ Time.Sub h.Timestamp x.timeNow > 1000000000 * 12 * (x.BlockTimeSec : Int)) :
    (BlockHeader.Validate x h = some (Err.cuckooSizeTooSmall h.POW.EdgeBits) ↔
      h.POW.EdgeBits ≠ x.SecondPowEdgeBits ∧ h.POW.EdgeBits < x.DefaultMinEdgeBits)
    ∧ (∀ n, BlockHeader.Validate x h = some (Err.cuckooSizeTooSmall n) →
        n = h.POW.EdgeBits ∧ h.POW.EdgeBits ≠ x.SecondPowEdgeBits
          ∧ h.POW.EdgeBits < x.DefaultMinEdgeBits)
    ∧ (h.POW.EdgeBits = x.SecondPowEdgeBits →
        ∀ n, BlockHeader.Validate x h ≠ some (Err.cuckooSizeTooSmall n))
    ∧ (¬ (h.POW.EdgeBits ≠ x.SecondPowEdgeBits ∧ h.POW.EdgeBits < x.DefaultMinEdgeBits) →
        BlockHeader.Validate x h
          = (x.powValidate h.POW h h.POW.EdgeBits).map Err.external) := by
  have hother : ¬ (h.POW.EdgeBits ≠ x.SecondPowEdgeBits
      ∧ h.POW.EdgeBits < x.DefaultMinEdgeBits) →
      BlockHeader.Validate x h = (x.powValidate h.POW h h.POW.EdgeBits).map Err.external := by
    intro hnot
    unfold BlockHeader.Validate
    have hcond : ¬ ((decide (h.POW.EdgeBits < x.DefaultMinEdgeBits)
        && (h.POW.EdgeBits != x.SecondPowEdgeBits)) = true) := by
      simp only [Bool.and_eq_true, decide_eq_true_eq, bne_iff_ne, ne_eq]
      intro hc
      exact hnot ⟨hc.2, hc.1⟩
    simp only [if_neg htime, if_neg hcond]
    cases x.powValidate h.POW h h.POW.EdgeBits <;> rfl
  have hsmall : h.POW.EdgeBits ≠ x.SecondPowEdgeBits ∧ h.POW.EdgeBits < x.DefaultMinEdgeBits →
      BlockHeader.Validate x h = some (Err.cuckooSizeTooSmall h.POW.EdgeBits) := by
    intro hc
    unfold BlockHeader.Validate
    have hcond : (decide (h.POW.EdgeBits < x.DefaultMinEdgeBits)
        && (h.POW.EdgeBits != x.SecondPowEdgeBits)) = true := by
      simp only [Bool.and_eq_true, decide_eq_true_eq, bne_iff_ne, ne_eq]
      exact ⟨hc.2, hc.1⟩
    simp only [if_neg htime, if_pos hcond]
  have hrule : ∀ n, BlockHeader.Validate x h = some (Err.cuckooSizeTooSmall n) →
      n = h.POW.EdgeBits ∧ h.POW.EdgeBits ≠ x.SecondPowEdgeBits
        ∧ h.POW.EdgeBits < x.DefaultMinEdgeBits := by
    intro n hn
    by_cases hc : h.POW.EdgeBits ≠ x.SecondPowEdgeBits ∧ h.POW.EdgeBits < x.DefaultMinEdgeBits
    · rw [hsmall hc] at hn
      simp only [Option.some.injEq, Err.cuckooSizeTooSmall.injEq] at hn
      exact ⟨hn.symm, hc⟩
    · rw [hother hc] at hn
      cases hp : x.powValidate h.POW h h.POW.EdgeBits <;> simp [hp] at hn
  refine ⟨⟨fun hv => (hrule _ hv).2, hsmall⟩, hrule, ?_, hother⟩
  intro hsec n hn
  exact (hrule n hn).2.1 hsec

/-- C15 (witness). Under the reference collaborators the header whose proof of work has the
secondary width 29, below the minimum 31, is not rejected for size: the result is that of
the proof of work's own validation, which accepts it. -/
theorem C15_witness_secondary_width :
    BlockHeader.Validate refExt secondaryHeader
      = (refExt.powValidate secondaryHeader.POW secondaryHeader 29).map Err.external :=
  (C15_edge_bits_rule refExt secondaryHeader (by decide)).2.2.2 (by decide)

/-! ## The proof-length guard of `Output.Read` -/

theorem readUint8_cons (fb : Nat) (r1 : Stream) :
    readUint8 (fb :: r1) = (none, fb % 256, r1) := by
  simp [readUint8, ioReadFull, makeBytes, bigEndianGet]

theorem withLimitReader_limited {α : Type} (n : Int) (r : Stream)
    (decode : Stream → Option Nat × α × Stream) :
    withLimitReader n r decode
      = ((decode (r.take n.toNat)).1, (decode (r.take n.toNat)).2.1,
          r.drop ((r.take n.toNat).length - (decode (r.take n.toNat)).2.2.length)) := rfl

theorem toInt64_toNat_le (v : Nat) : (toInt64 v).toNat ≤ v := by
  unfold toInt64
  have hmod : v % 2 ^ 64 ≤ v := Nat.mod_le _ _
  split <;> omega

/-- C16. For every stream whose features byte and commitment decode and which holds the
eight bytes of the proof length: when the declared length exceeds `MaxProofSize`,
`Output.Read` returns the invalid-length error with that length, leaves the range proof of
the receiver alone and the stream right after the length field, whatever the proof decoder
would do; when the length is within the limit, the proof decoder is run on a prefix of the
rest of the stream of at most that many bytes, and `Output.Read` fails with the
deserialisation error or stores the proof according to the decoder's result. -/
theorem C16_proof_length_guard (x : Ext) (o : Output) (fb : Nat) (r1 r2 : Stream) (p : Point)
    (hcommit : x.pointRead Point.zero r1 = (none, p, r2)) (hlen : 8 ≤ r2.length) :
    (bigEndianGet (r2.take 8) > x.MaxProofSize →
      Output.Read x o (fb :: r1)
        = ⟨some (Err.invalidRangeProofLength (bigEndianGet (r2.take 8))),
            { o with Features := fb % 256, Commit := p }, r2.drop 8⟩)
    ∧ (bigEndianGet (r2.take 8) ≤ x.MaxProofSize →
      ∃ limited : Stream, limited <+: r2.drop 8
        ∧ limited.length ≤ bigEndianGet (r2.take 8)
        ∧ Output.Read x o (fb :: r1)
          = match x.bulletProofRead BulletProof.zero limited with
            | (some _, _, l) =>
              ⟨some Err.failedDeserializeRangeProof,
                { o with Features := fb % 256, Commit := p },
                (r2.drop 8).drop (limited.length - l.length)⟩
            | (none, proof, l) =>
              ⟨none, { Features := fb % 256, Commit := p, RangeProof := proof },
                (r2.drop 8).drop (limited.length - l.length)⟩) := by
  have hread : Output.Read x o (fb :: r1) =
      if bigEndianGet (r2.take 8) > x.MaxProofSize then
        ⟨some (Err.invalidRangeProofLength (bigEndianGet (r2.take 8))),
          { o with Features := fb % 256, Commit := p }, r2.drop 8⟩
      else
        match withLimitReader (toInt64 (bigEndianGet (r2.take 8))) (r2.drop 8)
            (x.bulletProofRead BulletProof.zero) with
        | (some _, _, r4) =>
          ⟨some Err.failedDeserializeRangeProof,
            { o with Features := fb % 256, Commit := p }, r4⟩
        | (none, proof, r4) =>
          ⟨none, { Features := fb % 256, Commit := p, RangeProof := proof }, r4⟩ := by
    unfold Output.Read
    rw [readUint8_cons]
    dsimp only
    rw [hcommit]
    dsimp only
    rw [readUint64_of_length r2 hlen]
  constructor
  · intro hbig
    rw [hread, if_pos hbig]
  · intro hsmall
    have hnot : ¬ bigEndianGet (r2.take 8) > x.MaxProofSize := by omega
    refine ⟨(r2.drop 8).take (toInt64 (bigEndianGet (r2.take 8))).toNat,
      List.take_prefix _ _, ?_, ?_⟩
    · have h1 := toInt64_toNat_le (bigEndianGet (r2.take 8))
      have h2 := List.length_take_le (toInt64 (bigEndianGet (r2.take 8))).toNat (r2.drop 8)
      omega
    · rw [hread, if_neg hnot, withLimitReader_limited]
      rcases hdec : x.bulletProofRead BulletProof.zero
        ((r2.drop 8).take (toInt64 (bigEndianGet (r2.take 8))).toNat) with ⟨e, proof, l⟩
      cases e <;> rfl

/-- C16 (witness). Under the reference collaborators, whose `MaxProofSize` is 5134, reading
an output from a stream that declares a proof of 5135 bytes fails with the invalid-length
error and leaves the two bytes after the length field unread. -/
theorem C16_witness_oversized_proof_length :
    Output.Read refExt Output.zero oversizedProofStream
      = ⟨some (Err.invalidRangeProofLength 5135), ⟨1, refPoint 3, BulletProof.zero⟩,
          [7, 7]⟩ := by
  have h := (C16_proof_length_guard refExt Output.zero 1 ((refPoint 3).raw ++ writeUint64 5135
    ++ [7, 7]) (writeUint64 5135 ++ [7, 7]) (refPoint 3) (by decide) (by decide)).1 (by decide)
  rw [show oversizedProofStream = 1 :: ((refPoint 3).raw ++ writeUint64 5135 ++ [7, 7]) from
    by decide, h]
  decide

/-! ## The layout of an encoded block -/

/-- C19. When the header encoder returns `header`, `Block.Bytes` returns exactly: `header`,
then the input count, the output count and the kernel count (those of the block, written
before the sort), each as a 64-bit big-endian integer, in that order, then the concatenated
encodings of the inputs, of the outputs and of the kernels, each list in the sorted order in
which the call leaves it in the block; each sorted list is a permutation of the original
one, so each written count is the number of elements of that kind written after it. When the
header encoder exits, so does `Block.Bytes`. -/
theorem C19_block_layout (x : Ext) (b : Block) (hsort : SortContract x) :
    (BlockHeader.Bytes x b.Header = none → Block.Bytes x b = none)
    ∧ (∀ header, BlockHeader.Bytes x b.Header = some header →
        ∃ b1, Block.Bytes x b
            = some (header ++ writeUint64 b.Inputs.length ++ writeUint64 b.Outputs.length
                ++ writeUint64 b.Kernels.length ++ writeAll Input.Bytes b1.Inputs
                ++ writeAll (Output.Bytes x) b1.Outputs
                ++ writeAll (TxKernel.Bytes x) b1.Kernels, b1)
          ∧ b1.Header = b.Header
          ∧ b1.Inputs.Perm b.Inputs ∧ b1.Outputs.Perm b.Outputs ∧ b1.Kernels.Perm b.Kernels
          ∧ sortIsSorted (InputList.Less x) b1.Inputs = true
          ∧ sortIsSorted (OutputList.Less x) b1.Outputs = true
          ∧ sortIsSorted (TxKernelList.Less x) b1.Kernels = true
          ∧ b.Inputs.length = b1.Inputs.length ∧ b.Outputs.length = b1.Outputs.length
          ∧ b.Kernels.length = b1.Kernels.length
          ∧ (writeUint64 b.Inputs.length).length = 8
          ∧ (writeUint64 b.Outputs.length).length = 8
          ∧ (writeUint64 b.Kernels.length).length = 8
          ∧ bigEndianGet (writeUint64 b.Inputs.length) = b1.Inputs.length % 2 ^ 64
          ∧ bigEndianGet (writeUint64 b.Outputs.length) = b1.Outputs.length % 2 ^ 64
          ∧ bigEndianGet (writeUint64 b.Kernels.length) = b1.Kernels.length % 2 ^ 64) := by
  have hget : ∀ v : Nat, bigEndianGet (writeUint64 v) = v % 2 ^ 64 := fun v =>
    bigEndianGet_put8 _ (Nat.mod_lt _ (by norm_num))
  constructor
  · intro hnone
    unfold Block.Bytes
    rw [hnone]
  · intro header hheader
    refine ⟨Block.sorted x b, ?_, rfl, (hsort.1 b.Inputs).1, (hsort.2.1 b.Outputs).1,
      (hsort.2.2 b.Kernels).1, (hsort.1 b.Inputs).2, (hsort.2.1 b.Outputs).2,
      (hsort.2.2 b.Kernels).2, (hsort.1 b.Inputs).1.length_eq.symm,
      (hsort.2.1 b.Outputs).1.length_eq.symm, (hsort.2.2 b.Kernels).1.length_eq.symm,
      writeUint64_length _, writeUint64_length _, writeUint64_length _, ?_, ?_, ?_⟩
    · unfold Block.Bytes
      rw [hheader]
      simp only [Block.sorted, List.append_assoc]
    · rw [hget]
      exact congrArg (· % 2 ^ 64) (hsort.1 b.Inputs).1.length_eq.symm
    · rw [hget]
      exact congrArg (· % 2 ^ 64) (hsort.2.1 b.Outputs).1.length_eq.symm
    · rw [hget]
      exact congrArg (· % 2 ^ 64) (hsort.2.2 b.Kernels).1.length_eq.symm

/-- C19 (witness). The reference block given with each list in descending hash order is
encoded as the reference header bytes, the counts 2, 2, 2 and the elements in ascending hash
order, which is the encoding of the reference block. -/
theorem C19_witness_shuffled_block :
    ∃ b1, Block.Bytes refExt shuffledBlock
        = some (BlockHeader.layout refExt refHeader ++ writeUint64 2 ++ writeUint64 2
            ++ writeUint64 2 ++ writeAll Input.Bytes b1.Inputs
            ++ writeAll (Output.Bytes refExt) b1.Outputs
            ++ writeAll (TxKernel.Bytes refExt) b1.Kernels, b1)
      ∧ b1 = refBlock := by
  obtain ⟨b1, hbytes, -⟩ := (C19_block_layout refExt shuffledBlock refExt_sortContract).2
    (BlockHeader.layout refExt refHeader) (by decide)
  have hconcrete : Block.Bytes refExt shuffledBlock
      = some (Block.layout refExt refBlock, refBlock) := by decide
  have hb1 : b1 = refBlock := by
    rw [hconcrete] at hbytes
    simp only [Option.some.injEq, Prod.mk.injEq] at hbytes
    exact hbytes.2.symm
  exact ⟨b1, hbytes, hb1⟩

/-! ## Input round trip -/

/-- C21. For every input whose commitment has exactly the `PedersenCommitmentSize` bytes
that the decoder reads, `Input.Bytes` is the features byte followed by the commitment bytes,
of length 1 + N; `Input.Read` applied to those bytes, whatever follows them, succeeds,
consumes exactly those 1 + N bytes and yields the input; and `Input.Read` on a stream
shorter than 1 + N bytes returns an error (`io.EOF` or `io.ErrUnexpectedEOF`). -/
theorem C21_input_round_trip (x : Ext) (i i0 : Input) (rest : Stream)
    (hfeatures : i.Features < 256) (hcommit : i.Commit.length = x.PedersenCommitmentSize) :
    Input.Bytes i = i.Features :: i.Commit
    ∧ (Input.Bytes i).length = 1 + x.PedersenCommitmentSize
    ∧ Input.Read x i0 (Input.Bytes i ++ rest) = ⟨none, i, rest⟩
    ∧ (Input.Read x i0 (Input.Bytes i ++ rest)).rest
        = (Input.Bytes i ++ rest).drop (1 + x.PedersenCommitmentSize)
    ∧ (∀ r : Stream, r.length < 1 + x.PedersenCommitmentSize →
        (Input.Read x i0 r).err = some Err.EOF
          ∨ (Input.Read x i0 r).err = some Err.ErrUnexpectedEOF) := by
  have hbytes : Input.Bytes i = i.Features :: i.Commit := by
    simp [Input.Bytes, writeUint8, Nat.mod_eq_of_lt hfeatures]
  have hlen : (Input.Bytes i).length = 1 + x.PedersenCommitmentSize := by
    rw [hbytes, List.length_cons, hcommit]
    omega
  have hread := inputRead_bytes x i i0 rest ⟨hfeatures, hcommit⟩
  refine ⟨hbytes, hlen, hread, ?_, ?_⟩
  · rw [hread]
    simp [← hlen]
  · intro r hr
    cases r with
    | nil =>
      left
      simp [Input.Read, readUint8, ioReadFull, makeBytes]
    | cons fb r1 =>
      have hshort : ¬ (makeBytes x.PedersenCommitmentSize).length ≤ r1.length := by
        simp only [makeBytes, List.length_replicate, List.length_cons] at hr ⊢
        omega
      unfold Input.Read
      rw [readUint8_cons]
      dsimp only
      unfold ioReadFull
      rw [if_neg hshort]
      by_cases hr1 : r1.length = 0
      · left
        simp [hr1]
      · right
        simp [hr1]

/-- C21 (witness). The reference input is read back from its 34 bytes, and the byte after
them is left in the stream. -/
theorem C21_witness_reference_input :
    Input.Read refExt Input.zero (Input.Bytes (refInput 1) ++ [42]) = ⟨none, refInput 1, [42]⟩ :=
  (C21_input_round_trip refExt (refInput 1) Input.zero [42] (by decide) (by decide)).2.2.1

/-! ## Canonical order and ties -/

/-- Two sorted arrangements of the same elements are the same list when no two different
elements tie. -/
theorem sorted_perm_eq_of_keysTellApart {α : Type} (key : α → List Nat) (less : α → α → Bool)
    (hless : ∀ a b, less a b = decide (bytesCompare (key a) (key b) < 0)) (l1 l2 : List α)
    (hperm : l1.Perm l2) (h1 : sortIsSorted less l1 = true) (h2 : sortIsSorted less l2 = true)
    (hties : KeysTellApart key l1) : l1 = l2 := by
  have hp1 := sortIsSorted_pairwise key less hless l1 h1
  have hp2 := sortIsSorted_pairwise key less hless l2 h2
  clear h1 h2
  induction l1 generalizing l2 with
  | nil => exact hperm.symm.eq_nil.symm
  | cons a t ih =>
    cases l2 with
    | nil => exact absurd hperm.eq_nil (by simp)
    | cons b t2 =>
      have hb : b ∈ a :: t := hperm.symm.subset (by simp)
      have ha : a ∈ b :: t2 := hperm.subset (by simp)
      have hhead : a = b := by
        by_contra hne
        have hbt : b ∈ t := by
          rcases List.mem_cons.mp hb with h | h
          · exact absurd h.symm hne
          · exact h
        have hat2 : a ∈ t2 := by
          rcases List.mem_cons.mp ha with h | h
          · exact absurd h hne
          · exact h
        have hba : less b a = false := (List.pairwise_cons.mp hp1).1 b hbt
        have hab : less a b = false := (List.pairwise_cons.mp hp2).1 a hat2
        rw [hless] at hba hab
        simp only [decide_eq_false_iff_not] at hba hab
        have hkey : key a = key b := by
          by_contra hk
          exact hab (bytesCompare_total (key a) (key b) hk hba)
        exact hne (hties a (by simp) b hb hkey)
      subst hhead
      have htail := ih t2 (List.Perm.cons_inv hperm)
        (fun c hc d hd hcd => hties c (by simp [hc]) d (by simp [hd]) hcd)
        (List.pairwise_cons.mp hp1).2 (List.pairwise_cons.mp hp2).2
      rw [htail]

theorem KeysTellApart.of_perm {α : Type} (key : α → List Nat) (l1 l2 : List α)
    (hperm : l1.Perm l2) (hties : KeysTellApart key l2) : KeysTellApart key l1 :=
  fun a ha b hb hab => hties a (hperm.subset ha) b (hperm.subset hb) hab

theorem blockBytes_unfold (x : Ext) (b : Block) :
    Block.Bytes x b =
      match BlockHeader.Bytes x b.Header with
      | none => none
      | some header =>
        some (header ++ (writeUint64 b.Inputs.length ++ writeUint64 b.Outputs.length
            ++ writeUint64 b.Kernels.length)
            ++ writeAll Input.Bytes (x.sortSort (InputList.Less x) b.Inputs)
            ++ writeAll (Output.Bytes x) (x.sortSort (OutputList.Less x) b.Outputs)
            ++ writeAll (TxKernel.Bytes x) (x.sortSort (TxKernelList.Less x) b.Kernels),
          ⟨b.Header, x.sortSort (InputList.Less x) b.Inputs,
            x.sortSort (OutputList.Less x) b.Outputs,
            x.sortSort (TxKernelList.Less x) b.Kernels⟩) := rfl

/-- C22 (counterexample). Under the reference collaborators, whose sort is the insertion
sort that `sort.Sort` runs on short slices, two blocks that `Block.Validate` accepts, with
the same header, inputs and kernels and with the same two outputs in either order, are
encoded as different byte strings: the two outputs have the same features and commitment,
hence the same hash, and differ in their range proofs. -/
theorem C22_counterexample_tied_outputs :
    tiedBlock.Header = tiedBlockSwapped.Header
    ∧ tiedBlock.Inputs.Perm tiedBlockSwapped.Inputs
    ∧ tiedBlock.Outputs.Perm tiedBlockSwapped.Outputs
    ∧ tiedBlock.Kernels.Perm tiedBlockSwapped.Kernels
    ∧ Block.Validate refExt tiedBlock = none
    ∧ Block.Validate refExt tiedBlockSwapped = none
    ∧ (Block.Bytes refExt tiedBlock).isSome = true
    ∧ (Block.Bytes refExt tiedBlockSwapped).isSome = true
    ∧ (Block.Bytes refExt tiedBlock).map Prod.fst
        ≠ (Block.Bytes refExt tiedBlockSwapped).map Prod.fst :=
  ⟨rfl, List.Perm.refl _, List.Perm.swap _ _ _, List.Perm.refl _, by decide, by decide,
    by decide, by decide, by decide⟩

/-- C22 (amended). The encoded block is independent of producer-side insertion order when no
two different elements of a list have the same hash: for any two blocks with equal headers
whose input lists, output lists and kernel lists are permutations of one another, and in
each of whose lists elements of equal hash are equal, `Block.Bytes` returns the same byte
string and leaves the same block; with a header that encodes, it does return one. -/
theorem C22_encoding_independent_of_order (x : Ext) (b1 b2 : Block) (hsort : SortContract x)
    (hheader : b1.Header = b2.Header) (hin : b1.Inputs.Perm b2.Inputs)
    (hout : b1.Outputs.Perm b2.Outputs) (hker : b1.Kernels.Perm b2.Kernels)
    (hties : b1.HashesTellApart x) :
    Block.Bytes x b1 = Block.Bytes x b2
    ∧ (Block.Bytes x b1).map Prod.fst = (Block.Bytes x b2).map Prod.fst
    ∧ (b1.Header.Encodable → ∃ bytes b3, Block.Bytes x b1 = some (bytes, b3)
        ∧ Block.Bytes x b2 = some (bytes, b3)) := by
  have hi : x.sortSort (InputList.Less x) b1.Inputs = x.sortSort (InputList.Less x) b2.Inputs :=
    sorted_perm_eq_of_keysTellApart (Input.Hash x) (InputList.Less x) (fun _ _ => rfl) _ _
      (((hsort.1 b1.Inputs).1.trans hin).trans (hsort.1 b2.Inputs).1.symm)
      (hsort.1 b1.Inputs).2 (hsort.1 b2.Inputs).2
      (KeysTellApart.of_perm _ _ _ (hsort.1 b1.Inputs).1 hties.1)
  have ho : x.sortSort (OutputList.Less x) b1.Outputs
      = x.sortSort (OutputList.Less x) b2.Outputs :=
    sorted_perm_eq_of_keysTellApart (Output.Hash x) (OutputList.Less x) (fun _ _ => rfl) _ _
      (((hsort.2.1 b1.Outputs).1.trans hout).trans (hsort.2.1 b2.Outputs).1.symm)
      (hsort.2.1 b1.Outputs).2 (hsort.2.1 b2.Outputs).2
      (KeysTellApart.of_perm _ _ _ (hsort.2.1 b1.Outputs).1 hties.2.1)
  have hk : x.sortSort (TxKernelList.Less x) b1.Kernels
      = x.sortSort (TxKernelList.Less x) b2.Kernels :=
    sorted_perm_eq_of_keysTellApart (TxKernel.Hash x) (TxKernelList.Less x) (fun _ _ => rfl)
      _ _ (((hsort.2.2 b1.Kernels).1.trans hker).trans (hsort.2.2 b2.Kernels).1.symm)
      (hsort.2.2 b1.Kernels).2 (hsort.2.2 b2.Kernels).2
      (KeysTellApart.of_perm _ _ _ (hsort.2.2 b1.Kernels).1 hties.2.2)
  have hsame : Block.Bytes x b1 = Block.Bytes x b2 := by
    rw [blockBytes_unfold x b1, blockBytes_unfold x b2, hheader, hi, ho, hk, hin.length_eq,
      hout.length_eq, hker.length_eq]
  refine ⟨hsame, by rw [hsame], ?_⟩
  intro henc
  refine ⟨_, _, blockBytes_of_encodable x b1 hsort henc, ?_⟩
  rw [← hsame]
  exact blockBytes_of_encodable x b1 hsort henc

/-- C22 (witness). The reference block and the same block given with each list in
descending hash order, in which no two elements tie, are encoded alike. -/
theorem C22_witness_shuffled_block :
    Block.Bytes refExt shuffledBlock = Block.Bytes refExt refBlock :=
  (C22_encoding_independent_of_order refExt shuffledBlock refBlock refExt_sortContract rfl
    (List.Perm.swap _ _ _) (List.Perm.swap _ _ _) (List.Perm.swap _ _ _)
    (by unfold Block.HashesTellApart KeysTellApart; decide)).1

/-! ## What encoding does to the block -/

end Blockchain2
